import Mathlib

/-!
Verification of the Aegis parental-control core against its source.

Shallow embedding conventions:
* Go `time.Time` instants are modeled as `Int`, counting seconds in a
  fixed-offset zone (the server's local zone), with 0 = 1970-01-01 00:00:00,
  a Thursday.  `time.Truncate`/`time.Date` round down since the zero time,
  which is floor division; Lean's `/` on `Int` is Euclidean (floor for a
  positive divisor), matching.
* Go slices are Lean lists; Go maps are association lists (`List (κ × β)`)
  looked up by first occurrence, or total functions where the map is only read.
* `rand.Read` is modeled by passing the random bytes as an argument.
* Fresh UUIDs (`uuid.New().String()`) are modeled by passing the fresh
  string as an argument.
* `end` is a Lean keyword, so Go fields named `End` are called `stop`.
-/

namespace Aegis

/-- `domain.TimeInterval` (src/internal/domain/schedule.go): allowed time
within a day, e.g. 09:00–11:00.  The Go fields are `"HH:MM"` strings; the
split on `:` and `Atoi` are abstracted away: each field is the pair
(hour, minute) of the parsed numbers, and `parseTime` keeps `ParseTime`'s
range validation (a malformed string behaves like an out-of-range pair). -/
structure TimeInterval where
  start : Nat × Nat
  stop  : Nat × Nat
deriving DecidableEq, Repr

/-- `domain.DaySchedule`: map day-of-week → interval list.  Keys are the
lowercase Go `Weekday` names; we index by Go's `Weekday` numbering
(0 = sunday … 6 = saturday).  A missing key behaves as the empty list. -/
def DaySchedule : Type := Fin 7 → List TimeInterval

/-- `domain.ParseTime` after the string split: validates
`0 ≤ hour ≤ 23 ∧ 0 ≤ minute ≤ 59` (negatives are unrepresentable in `Nat`). -/
def parseTime (p : Nat × Nat) : Option (Nat × Nat) :=
  if 23 < p.1 ∨ 59 < p.2 then none else some p

/-- `domain.AllowedInterval`: an absolute `[start, stop)` window. -/
structure AllowedInterval where
  start : Int
  stop  : Int
deriving DecidableEq, Repr

/-- `domain.TempAccessRange`. -/
structure TempAccessRange where
  start : Int
  stop  : Int
deriving DecidableEq, Repr

/-- `domain.BlockRange`. -/
structure BlockRange where
  start : Int
  stop  : Int
deriving DecidableEq, Repr

/-- `domain.IntervalWindowHours` = 48 (today + tomorrow). -/
def IntervalWindowHours : Int := 48

/-- Go `t.Truncate(time.Minute)`: round down to a whole minute. -/
def truncMinute (t : Int) : Int := 60 * (t / 60)

/-- Midnight of the day containing `t`:
Go `time.Date(now.Year(), now.Month(), now.Day(), 0, 0, 0, 0, loc)`. -/
def floorDay (t : Int) : Int := 86400 * (t / 86400)

/-- Go `day.Weekday()` for the day starting at instant `day`:
1970-01-01 (day number 0) was a Thursday, and Go numbers Sunday = 0. -/
def weekdayOf (day : Int) : Fin 7 :=
  ⟨((day / 86400 + 4) % 7).toNat, by
    have h7 : (0:Int) < 7 := by norm_num
    have h1 := Int.emod_nonneg (day / 86400 + 4) (by norm_num : (7:Int) ≠ 0)
    have h2 := Int.emod_lt_of_pos (day / 86400 + 4) h7
    omega⟩

/-- `domain.parseDayInterval`: place an `HH:MM`–`HH:MM` pair on the calendar
day starting at `day`; when `end ≤ start` the interval wraps past midnight
(`end` gets 24 h added). -/
def parseDayInterval (day : Int) (iv : TimeInterval) : Option (Int × Int) :=
  match parseTime iv.start, parseTime iv.stop with
  | some (sh, sm), some (eh, em) =>
    let s : Int := day + ((sh : Int) * 3600 + (sm : Int) * 60)
    let e : Int := day + ((eh : Int) * 3600 + (em : Int) * 60)
    some (s, if e ≤ s then e + 86400 else e)
  | _, _ => none

/-- One iteration of the schedule loop in `domain.ComputeAllowedIntervals`
(step 1): emit the clipped schedule interval for `iv` on the day starting
at `day`, or nothing. -/
def emitSched (now windowEnd : Int) (includePast : Bool) (day : Int)
    (iv : TimeInterval) : Option AllowedInterval :=
  match parseDayInterval day iv with
  | none => none
  | some (start0, end0) =>
    if includePast = false ∧ end0 < now then none
    else if windowEnd < start0 then none
    else
      let s := if includePast = false ∧ start0 < now then now else start0
      let e := if windowEnd < end0 then windowEnd else end0
      if s < e then some ⟨s, e⟩ else none

/-- One iteration of the temp-access loop in `domain.ComputeAllowedIntervals`
(step 2): clip a grant to `[now, windowEnd]`, or drop it. -/
def emitTemp (now windowEnd : Int) (includePast : Bool)
    (ta : TempAccessRange) : Option AllowedInterval :=
  if includePast = false ∧ ta.stop < now then none
  else if windowEnd < ta.start then none
  else
    let s := if ta.start < now ∧ includePast = false then now else ta.start
    let e := if windowEnd < ta.stop then windowEnd else ta.stop
    if s < e then some ⟨s, e⟩ else none

/-- Order used by `sort.Slice(intervals, …Start.Before…)`. -/
def leStart (a b : AllowedInterval) : Prop := a.start ≤ b.start

instance : DecidableRel leStart := fun a b => Int.decLe a.start b.start

instance : IsTotal AllowedInterval leStart :=
  ⟨fun a b => Int.le_total a.start b.start⟩

instance : IsTrans AllowedInterval leStart :=
  ⟨fun _ _ _ hab hbc => le_trans hab hbc⟩

/-- The sort inside `domain.mergeIntervals`.  Go's `sort.Slice` is an
unspecified-order unstable sort by `Start`; we model it as a stable sort by
`Start`, one valid outcome of the Go code. -/
def sortIntervals (l : List AllowedInterval) : List AllowedInterval :=
  l.insertionSort leStart

/-- The coalescing loop of `domain.mergeIntervals`: `cur` is the interval
`merged` currently ends with (Go mutates it through `last`). -/
def coalesce : AllowedInterval → List AllowedInterval → List AllowedInterval
  | cur, [] => [cur]
  | cur, iv :: rest =>
    if iv.start ≤ cur.stop then
      coalesce ⟨cur.start, if cur.stop < iv.stop then iv.stop else cur.stop⟩ rest
    else
      cur :: coalesce iv rest

/-- `domain.mergeIntervals`: sort by start, then coalesce touching or
overlapping neighbours. -/
def mergeIntervals (intervals : List AllowedInterval) : List AllowedInterval :=
  match sortIntervals intervals with
  | [] => []
  | first :: rest => coalesce first rest

/-- `domain.subtractBlockFromIntervals`: cut `[blockStart, blockUntil]` out
of each interval; an interval can split into two pieces. -/
def subtractBlockFromIntervals (intervals : List AllowedInterval)
    (blockStart blockUntil : Int) : List AllowedInterval :=
  intervals.flatMap fun iv =>
    if ¬ blockStart < iv.stop ∨ ¬ iv.start < blockUntil then [iv]
    else
      (if iv.start < blockStart then [(⟨iv.start, blockStart⟩ : AllowedInterval)] else []) ++
      (if blockUntil < iv.stop then [(⟨blockUntil, iv.stop⟩ : AllowedInterval)] else [])

/-- One comparison of the next-change scan (step 5): take `x` as the new
candidate when it is strictly in the future and strictly below `cur`. -/
def stepNC (now cur x : Int) : Int := if now < x ∧ x < cur then x else cur

/-- The effective `now` inside `domain.ComputeAllowedIntervals`: truncated
to a whole minute unless `includePast` is set. -/
def effectiveNow (now : Int) (includePast : Bool) : Int :=
  if includePast then now else truncMinute now

/-- The schedule-expansion intervals (step 1) of
`domain.ComputeAllowedIntervals` for today and tomorrow. -/
def schedIntervals (now windowEnd today : Int) (schedule : DaySchedule)
    (includePast : Bool) : List AllowedInterval :=
  ([0, 1] : List Int).flatMap fun dayOffset =>
    let day := today + dayOffset * 86400
    (schedule (weekdayOf day)).filterMap (emitSched now windowEnd includePast day)

/-- Steps 3–4 of `domain.ComputeAllowedIntervals`: merge, then cut each
still-active block out of the list. -/
def applyBlocks (now : Int) (blocks : List BlockRange)
    (merged : List AllowedInterval) : List AllowedInterval :=
  blocks.foldl
    (fun acc b =>
      if now < b.stop ∧ b.start < b.stop then
        subtractBlockFromIntervals acc b.start b.stop
      else acc)
    merged

/-- Step 5 of `domain.ComputeAllowedIntervals`: scan all boundaries. -/
def nextChangeScan (now windowEnd : Int) (ivs : List AllowedInterval)
    (tempAccess : List TempAccessRange) (blocks : List BlockRange) : Int :=
  blocks.foldl (fun c bl => stepNC now (stepNC now c bl.start) bl.stop)
    (tempAccess.foldl (fun c ta => stepNC now c ta.stop)
      (ivs.foldl (fun c iv => stepNC now (stepNC now c iv.start) iv.stop) windowEnd))

/-- Steps 1–2 of `domain.ComputeAllowedIntervals`: the raw clipped interval
list (schedule expansion for today and tomorrow, then the temp grants), in
the order the Go loops append them. -/
def baseIntervals (now windowEnd today : Int) (schedule : DaySchedule)
    (tempAccess : List TempAccessRange) (includePast : Bool) :
    List AllowedInterval :=
  schedIntervals now windowEnd today schedule includePast ++
    tempAccess.filterMap (emitTemp now windowEnd includePast)

/-- `domain.ComputeAllowedIntervals` (src, domain package): compute the
allowed intervals for the next 48 h plus the next-change instant. -/
def computeAllowedIntervals (now0 : Int) (schedule : DaySchedule)
    (tempAccess : List TempAccessRange) (blocks : List BlockRange)
    (includePast : Bool) : List AllowedInterval × Int :=
  let now := effectiveNow now0 includePast
  let windowEnd := now + IntervalWindowHours * 3600
  let today := floorDay now
  let merged := mergeIntervals (baseIntervals now windowEnd today schedule tempAccess includePast)
  let afterBlocks := applyBlocks now blocks merged
  (afterBlocks, nextChangeScan now windowEnd afterBlocks tempAccess blocks)

/-- Half-open membership of an instant in one interval list. -/
def covered (l : List AllowedInterval) (t : Int) : Prop :=
  ∃ iv ∈ l, iv.start ≤ t ∧ t < iv.stop

instance (l : List AllowedInterval) (t : Int) : Decidable (covered l t) :=
  List.decidableBEx _ l

-- Sanity checks: the spec's §8 concrete scenarios, placed on Thursday
-- 1970-01-01 (instant 0 is midnight, weekday 4 = thursday).
def thursdaySchedule : DaySchedule :=
  fun d => if d = (4 : Fin 7) then [⟨(7, 0), (13, 15)⟩] else []

/-- The boundary candidates scanned by step 5 of
`domain.ComputeAllowedIntervals`, in scan order: result interval
starts/stops, grant ends, block starts/stops. -/
def ncCandidates (ivs : List AllowedInterval) (tempAccess : List TempAccessRange)
    (blocks : List BlockRange) : List Int :=
  (ivs.flatMap fun iv => [iv.start, iv.stop]) ++
    tempAccess.map (fun ta => ta.stop) ++
    blocks.flatMap fun b => [b.start, b.stop]

/-! ### The agent enforcement loop (C1) and password generation (C9),
from src/internal/usecase/client/apply_access.go -/

/-- `domain.UserAccessConfig`: per-user config sent to the client. -/
structure UserAccessConfig where
  username : String
  allowedIntervals : List AllowedInterval
deriving DecidableEq, Repr

/-- `domain.ClientConfig`: the full config sent to a client. -/
structure ClientConfig where
  users : List UserAccessConfig
  version : String
deriving DecidableEq, Repr

/-- `client.isWithinIntervals`: half-open membership test
`(t.Equal(iv.Start) || t.After(iv.Start)) && t.Before(iv.End)`. -/
def isWithinIntervals (t : Int) (intervals : List AllowedInterval) : Bool :=
  intervals.any fun iv =>
    (decide (t = iv.start) || decide (iv.start < t)) && decide (t < iv.stop)

/-- `client.unlockPassword`: the fixed well-known unlock password. -/
def unlockPassword : String := "123456"

/-- `client.lockPasswordLen`. -/
def lockPasswordLen : Nat := 20

/-- The password argument passed to `SetPassword`, abstracted to its kind:
the fixed unlock password, or a fresh random 20-char lock password (whose
content is modeled separately by `generateRandomPassword`). -/
inductive PasswordArg
  | unlock
  | randomLocked
deriving DecidableEq, Repr

/-- One call issued to the `port.UserControl` capability (C5). -/
inductive ControlCall
  | setPassword (username : String) (password : PasswordArg)
  | disconnect (username : String)
deriving DecidableEq, Repr

/-- Go map read `lastState[username]`: zero value `false` when absent. -/
def lookupBool (m : List (String × Bool)) (k : String) : Bool :=
  (m.lookup k).getD false

/-- Go map write `newState[username] = v`. -/
def setBool (m : List (String × Bool)) (k : String) (v : Bool) :
    List (String × Bool) :=
  match m with
  | [] => [(k, v)]
  | (q, w) :: rest => if q = k then (k, v) :: rest else (q, w) :: setBool rest k v

/-- `client.ApplyAccessIfNeeded`: one reconcile pass.  `spOk` is the
success oracle for `SetPassword` (the Go error result); the result of
`DisconnectUserSession` is ignored by the code apart from logging, so no
oracle is needed for it.  Returns the new `lastState` and the sequence of
capability calls issued.  An empty user list returns `lastState` untouched
(the Go code returns the argument, nil included). -/
def applyAccessIfNeeded (spOk : String → PasswordArg → Bool)
    (config : ClientConfig) (now : Int) (lastState : List (String × Bool)) :
    List (String × Bool) × List ControlCall :=
  if config.users.length = 0 then (lastState, [])
  else
    config.users.foldl
      (fun acc uc =>
        let required := isWithinIntervals now uc.allowedIntervals
        let current := lookupBool lastState uc.username
        if required = current then (setBool acc.1 uc.username required, acc.2)
        else if required then
          if spOk uc.username PasswordArg.unlock then
            (setBool acc.1 uc.username true,
              acc.2 ++ [ControlCall.setPassword uc.username PasswordArg.unlock])
          else
            (setBool acc.1 uc.username false,
              acc.2 ++ [ControlCall.setPassword uc.username PasswordArg.unlock])
        else
          if spOk uc.username PasswordArg.randomLocked then
            (setBool acc.1 uc.username false,
              acc.2 ++ [ControlCall.setPassword uc.username PasswordArg.randomLocked,
                ControlCall.disconnect uc.username])
          else
            (setBool acc.1 uc.username true,
              acc.2 ++ [ControlCall.setPassword uc.username PasswordArg.randomLocked]))
      ([], [])

/-- The password alphabet of `client.generateRandomPassword`. -/
def passwordChars : List Char :=
  "abcdefghijklmnopqrstuvwxyzABCDEFGHIJKLMNOPQRSTUVWXYZ0123456789".toList

/-- One output character of `client.generateRandomPassword`:
`chars[int(b[i]) % len(chars)]`. -/
def byteToChar (b : Fin 256) : Char :=
  passwordChars.get ⟨(b : Nat) % passwordChars.length,
    Nat.mod_lt _ (by decide)⟩

/-- `client.generateRandomPassword`: fill `length` bytes from `crypto/rand`
(modeled as the `randomBytes` argument; the Go code ignores `rand.Read`'s
error) and map each through the alphabet. -/
def generateRandomPassword (length : Nat)
    (randomBytes : Fin length → Fin 256) : List Char :=
  List.ofFn fun i => byteToChar (randomBytes i)

/-! ### The client store (jsonfile repository) and server compute,
from src/internal/port/user_control.go (jsonfile section) and the server
usecase package. -/

/-- `domain.User`. -/
structure User where
  id : String
  name : String
  username : String
  schedule : DaySchedule

/-- `port.BlockRequest`; empty `userID` means the block applies to all
users of the computer. -/
structure BlockRequest where
  id : String
  userID : String
  start : Int
  untl : Int  -- Go field `Until`

/-- `port.TemporaryAccessRequest`. -/
structure TemporaryAccessRequest where
  id : String
  userID : String
  start : Int
  untl : Int  -- Go field `Until`

/-- `port.ClientState`: persistent and ephemeral data of one client.
`LastSentIntervals` (a Go map) is an association list. -/
structure ClientState where
  id : String
  name : String
  users : List User
  blockRequests : List BlockRequest
  temporaryAccessRequests : List TemporaryAccessRequest
  lastSentIntervals : List (String × List AllowedInterval)
  lastSentVersion : String
  computedConfig : Option ClientConfig

/-- `jsonfile.maxRequests` = 10. -/
def maxRequests : Nat := 10

/-- The per-user temp ranges built by `server.ComputeClientConfig`
(`tempAccessByUser`), in request order. -/
def tempAccessFor (state : ClientState) (uid : String) : List TempAccessRange :=
  (state.temporaryAccessRequests.filter fun t => t.userID = uid).map
    fun t => ⟨t.start, t.untl⟩

/-- The global blocks (`UserID == ""`) of `server.ComputeClientConfig`. -/
def globalBlocksOf (state : ClientState) : List BlockRange :=
  (state.blockRequests.filter fun b => b.userID = "").map
    fun b => ⟨b.start, b.untl⟩

/-- The per-user blocks (`blocksByUser`) of `server.ComputeClientConfig`. -/
def userBlocksOf (state : ClientState) (uid : String) : List BlockRange :=
  (state.blockRequests.filter fun b => ¬ b.userID = "" ∧ b.userID = uid).map
    fun b => ⟨b.start, b.untl⟩

/-- `server.ComputeClientConfig`: per-user allowed intervals (global +
per-user blocks), plus the minimum next-change over users.  Go's
`nextChange.IsZero()` fallback to `now + 48h` fires exactly when the user
list is empty (the engine never returns Go's year-1 zero time). -/
def computeClientConfig (now : Int) (state : ClientState) (includePast : Bool) :
    ClientConfig × Int :=
  let users := state.users.map fun u =>
    { username := u.username
      allowedIntervals :=
        (computeAllowedIntervals now u.schedule (tempAccessFor state u.id)
          (globalBlocksOf state ++ userBlocksOf state u.id) includePast).1 }
  let ncs := state.users.map fun u =>
    (computeAllowedIntervals now u.schedule (tempAccessFor state u.id)
      (globalBlocksOf state ++ userBlocksOf state u.id) includePast).2
  let nextChange :=
    match ncs with
    | [] => now + 48 * 3600
    | x :: xs => xs.foldl (fun c n => if n < c then n else c) x
  (⟨users, state.lastSentVersion⟩, nextChange)

/-- The repository's in-memory `clients` map, as an association list
(lookup = first occurrence; Go map keys are unique). -/
abbrev Store : Type := List (String × ClientState)

/-- Go map read `r.clients[clientID]` (keys are unique; first match). -/
def lookupClient (store : Store) (clientID : String) : Option ClientState :=
  match store with
  | [] => none
  | (k, v) :: rest => if k = clientID then some v else lookupClient rest clientID

/-- Go map write `r.clients[clientID] = cs`. -/
def setClient (store : Store) (clientID : String) (cs : ClientState) : Store :=
  match store with
  | [] => [(clientID, cs)]
  | (k, v) :: rest =>
    if k = clientID then (clientID, cs) :: rest
    else (k, v) :: setClient rest clientID cs

/-- `jsonfile.Repository.GrantTemporaryAccess`: append `{now, until}`,
keep the last `maxRequests`, recompute the config, notify, save.  `freshID`
models `uuid.New().String()`; persistence always succeeds in the model;
`notify` has no store effect. -/
def grantTemporaryAccess (store : Store) (clientID userID : String)
    (untl now : Int) (freshID : String) : Store :=
  match lookupClient store clientID with
  | none => store
  | some cs =>
    let temps := cs.temporaryAccessRequests ++ [⟨freshID, userID, now, untl⟩]
    let temps := if maxRequests < temps.length then
        temps.drop (temps.length - maxRequests) else temps
    let cs1 := { cs with temporaryAccessRequests := temps }
    setClient store clientID
      { cs1 with computedConfig := some (computeClientConfig now cs1 true).1 }

/-- `jsonfile.Repository.BlockClient`: append, keep last `maxRequests`,
recompute, notify, save. -/
def blockClient (store : Store) (clientID userID : String)
    (start untl now : Int) (freshID : String) : Store :=
  match lookupClient store clientID with
  | none => store
  | some cs =>
    let blocks := cs.blockRequests ++ [⟨freshID, userID, start, untl⟩]
    let blocks := if maxRequests < blocks.length then
        blocks.drop (blocks.length - maxRequests) else blocks
    let cs1 := { cs with blockRequests := blocks }
    setClient store clientID
      { cs1 with computedConfig := some (computeClientConfig now cs1 true).1 }

/-- `jsonfile.Repository.AddUser`: creates the client record (id = name =
clientID) when absent, assigns a fresh user id when empty, appends,
recomputes. -/
def addUser (store : Store) (clientID : String) (user : User)
    (freshUserID : String) (now : Int) : Store :=
  let cs := match lookupClient store clientID with
    | none => (⟨clientID, clientID, [], [], [], [], "", none⟩ : ClientState)
    | some cs => cs
  let user := if user.id = "" then { user with id := freshUserID } else user
  let cs1 := { cs with users := cs.users ++ [user] }
  setClient store clientID
    { cs1 with computedConfig := some (computeClientConfig now cs1 true).1 }

/-- The user-list scan of `jsonfile.Repository.UpdateUserSchedule`: update
the first user whose id matches, or report no match. -/
def updateFirstUser : List User → String → DaySchedule → Option (List User)
  | [], _, _ => none
  | u :: rest, uid, sched =>
    if u.id = uid then some ({ u with schedule := sched } :: rest)
    else (updateFirstUser rest uid sched).map (u :: ·)

/-- `jsonfile.Repository.UpdateUserSchedule`: no-op (no recompute, no
notify) when the client or user is unknown. -/
def updateUserSchedule (store : Store) (clientID userID : String)
    (sched : DaySchedule) (now : Int) : Store :=
  match lookupClient store clientID with
  | none => store
  | some cs =>
    match updateFirstUser cs.users userID sched with
    | none => store
    | some users1 =>
      let cs1 := { cs with users := users1 }
      setClient store clientID
        { cs1 with computedConfig := some (computeClientConfig now cs1 true).1 }

/-- The user-list scan of `jsonfile.Repository.DeleteUser`: remove the
first user whose id matches, or report no match. -/
def removeFirstUser : List User → String → Option (List User)
  | [], _ => none
  | u :: rest, uid =>
    if u.id = uid then some rest
    else (removeFirstUser rest uid).map (u :: ·)

/-- `jsonfile.Repository.DeleteUser`: remove the first matching user, drop
that user's temp-access requests, recompute; no-op when client or user is
unknown. -/
def deleteUser (store : Store) (clientID userID : String) (now : Int) : Store :=
  match lookupClient store clientID with
  | none => store
  | some cs =>
    match removeFirstUser cs.users userID with
    | none => store
    | some users1 =>
      let cs1 := { cs with
        users := users1
        temporaryAccessRequests :=
          cs.temporaryAccessRequests.filter fun t => ¬ t.userID = userID }
      setClient store clientID
        { cs1 with computedConfig := some (computeClientConfig now cs1 true).1 }

/-- The scan of `jsonfile.Repository.DeleteBlockRequest`. -/
def removeFirstBlock : List BlockRequest → String → Option (List BlockRequest)
  | [], _ => none
  | b :: rest, rid =>
    if b.id = rid then some rest
    else (removeFirstBlock rest rid).map (b :: ·)

/-- `jsonfile.Repository.DeleteBlockRequest`. -/
def deleteBlockRequest (store : Store) (clientID requestID : String)
    (now : Int) : Store :=
  match lookupClient store clientID with
  | none => store
  | some cs =>
    match removeFirstBlock cs.blockRequests requestID with
    | none => store
    | some blocks1 =>
      let cs1 := { cs with blockRequests := blocks1 }
      setClient store clientID
        { cs1 with computedConfig := some (computeClientConfig now cs1 true).1 }

/-- The scan of `jsonfile.Repository.DeleteTemporaryAccessRequest`. -/
def removeFirstTemp : List TemporaryAccessRequest → String →
    Option (List TemporaryAccessRequest)
  | [], _ => none
  | t :: rest, rid =>
    if t.id = rid then some rest
    else (removeFirstTemp rest rid).map (t :: ·)

/-- `jsonfile.Repository.DeleteTemporaryAccessRequest`. -/
def deleteTemporaryAccessRequest (store : Store) (clientID requestID : String)
    (now : Int) : Store :=
  match lookupClient store clientID with
  | none => store
  | some cs =>
    match removeFirstTemp cs.temporaryAccessRequests requestID with
    | none => store
    | some temps1 =>
      let cs1 := { cs with temporaryAccessRequests := temps1 }
      setClient store clientID
        { cs1 with computedConfig := some (computeClientConfig now cs1 true).1 }

/-- `jsonfile.Repository.IncrementConfigVersion`: fresh version, recompute,
notify, save; no-op on unknown client. -/
def incrementConfigVersion (store : Store) (clientID : String)
    (freshVersion : String) (now : Int) : Store :=
  match lookupClient store clientID with
  | none => store
  | some cs =>
    let cs1 := { cs with lastSentVersion := freshVersion }
    setClient store clientID
      { cs1 with computedConfig := some (computeClientConfig now cs1 true).1 }

/-- `jsonfile.Repository.SaveClient`: assign a version if missing, compute
the config, upsert. -/
def saveClient (store : Store) (client : ClientState) (now : Int)
    (freshVersion : String) : Store :=
  let client1 := if client.lastSentVersion = "" then
      { client with lastSentVersion := freshVersion } else client
  setClient store client1.id
    { client1 with computedConfig := some (computeClientConfig now client1 true).1 }

/-- `jsonfile.Repository.DeleteClient`: remove the map entry (and the
subscriber list, which has no store representation); no-op when absent. -/
def deleteClient (store : Store) (clientID : String) : Store :=
  match lookupClient store clientID with
  | none => store
  | some _ => store.filter fun kv => ¬ kv.1 = clientID

/-- `jsonfile.Repository.UpdateLastSent`. -/
def updateLastSent (store : Store) (clientID : String)
    (intervals : List (String × List AllowedInterval)) : Store :=
  match lookupClient store clientID with
  | none => store
  | some cs => setClient store clientID { cs with lastSentIntervals := intervals }

/-- `jsonfile.Repository.GetClient`: prune expired temp grants and blocks
(`Until.After(now)` keeps), compute the config when missing (migration:
also mint a version when empty), persist if anything changed, and return a
snapshot.  Returns the updated store and the state (or `none`). -/
def getClient (store : Store) (clientID : String) (now : Int)
    (freshVersion : String) : Store × Option ClientState :=
  match lookupClient store clientID with
  | none => (store, none)
  | some cs =>
    let cs1 := { cs with
      temporaryAccessRequests :=
        cs.temporaryAccessRequests.filter fun t => now < t.untl
      blockRequests := cs.blockRequests.filter fun b => now < b.untl }
    let cs2 :=
      match cs1.computedConfig with
      | some _ => cs1
      | none =>
        let cs1a := if cs1.lastSentVersion = "" then
            { cs1 with lastSentVersion := freshVersion } else cs1
        { cs1a with computedConfig := some (computeClientConfig now cs1a true).1 }
    (setClient store clientID cs2, some cs2)

/-! ### HTTP layer (api.go, handler.go) -/

/-- `Handler.TemporaryAccess` (api.go): decode `{user_id, duration}`
(decoding abstracted: the decoded fields are arguments), reject
non-positive durations with 400, call the repo, bump the version, 200.
Repo errors cannot occur in the model (persistence always succeeds). -/
def temporaryAccessEndpoint (store : Store) (clientID userID : String)
    (duration : Int) (now : Int) (freshID freshVersion : String) : Store × Nat :=
  if duration ≤ 0 then (store, 400)
  else
    let store1 := grantTemporaryAccess store clientID userID
      (now + duration * 60) now freshID
    (incrementConfigVersion store1 clientID freshVersion now, 200)

/-- `Handler.Block` (api.go): like `TemporaryAccess`; empty `userID`
blocks all users; the block starts at `now`. -/
def blockEndpoint (store : Store) (clientID userID : String)
    (duration : Int) (now : Int) (freshID freshVersion : String) : Store × Nat :=
  if duration ≤ 0 then (store, 400)
  else
    let store1 := blockClient store clientID userID now
      (now + duration * 60) now freshID
    (incrementConfigVersion store1 clientID freshVersion now, 200)

/-- `Handler.AddUser` (api.go): build the user with a fresh id (the handler
itself mints the uuid, and substitutes an empty schedule map for nil — the
schedule argument is already total here), call the repo, bump, 200. -/
def addUserEndpoint (store : Store) (clientID name username : String)
    (schedule : DaySchedule) (freshUserID freshVersion : String)
    (now : Int) : Store × Nat :=
  let store1 := addUser store clientID ⟨freshUserID, name, username, schedule⟩
    freshUserID now
  (incrementConfigVersion store1 clientID freshVersion now, 200)

/-- `Handler.UpdateSchedule` (api.go). -/
def updateScheduleEndpoint (store : Store) (clientID userID : String)
    (schedule : DaySchedule) (freshVersion : String) (now : Int) : Store × Nat :=
  let store1 := updateUserSchedule store clientID userID schedule now
  (incrementConfigVersion store1 clientID freshVersion now, 200)

/-- `Handler.DeleteUser` (api.go). -/
def deleteUserEndpoint (store : Store) (clientID userID : String)
    (freshVersion : String) (now : Int) : Store × Nat :=
  let store1 := deleteUser store clientID userID now
  (incrementConfigVersion store1 clientID freshVersion now, 200)

/-- `Handler.DeleteBlock` (api.go). -/
def deleteBlockEndpoint (store : Store) (clientID requestID : String)
    (freshVersion : String) (now : Int) : Store × Nat :=
  let store1 := deleteBlockRequest store clientID requestID now
  (incrementConfigVersion store1 clientID freshVersion now, 200)

/-- `Handler.DeleteTemporaryAccess` (api.go). -/
def deleteTemporaryAccessEndpoint (store : Store) (clientID requestID : String)
    (freshVersion : String) (now : Int) : Store × Nat :=
  let store1 := deleteTemporaryAccessRequest store clientID requestID now
  (incrementConfigVersion store1 clientID freshVersion now, 200)

/-- The response of `Handler.ServeConfig` (handler.go). -/
inductive ConfigResponse
  | badRequest                    -- 400 "client_id required"
  | forbidden                     -- 403 "client not found"
  | internalError                 -- 500 "config not computed"
  | body (config : ClientConfig)  -- immediate 200 with the JSON body
  | longPollWait (deadline : Int) -- entered the select wait

/-- The long-poll deadline of `ServeConfig`: `min(now + 60 s, nextChange)`,
capped at `now + 55 s`. -/
def longPollDeadline (now nextChange : Int) : Int :=
  let deadline := now + 60
  let deadline := if nextChange < deadline then nextChange else deadline
  if 55 < deadline - now then now + 55 else deadline

/-- Go map write into the `intervals` map of `Handler.sendConfig`
(later duplicates overwrite). -/
def setIntervals (m : List (String × List AllowedInterval)) (k : String)
    (v : List AllowedInterval) : List (String × List AllowedInterval) :=
  match m with
  | [] => [(k, v)]
  | (q, w) :: rest =>
    if q = k then (k, v) :: rest else (q, w) :: setIntervals rest k v

/-- `Handler.sendConfig`: re-read the client and record
`last_sent_intervals` from the emitted config, then write the body. -/
def sendConfig (store : Store) (clientID : String) (config : ClientConfig)
    (now : Int) (freshVersion : String) : Store :=
  let res := getClient store clientID now freshVersion
  match res.2 with
  | none => res.1
  | some _ =>
    updateLastSent res.1 clientID
      (config.users.foldl (fun m uc => setIntervals m uc.username uc.allowedIntervals) [])

/-- `Handler.ServeConfig` (handler.go), up to the point where it either
responds immediately or enters the long-poll wait; the wait itself
(subscription signal / timer / peer disconnect) is concurrency and is
abstracted as the `longPollWait` response carrying the computed deadline. -/
def serveConfig (store : Store) (clientID version : String) (now : Int)
    (freshVersion : String) : Store × ConfigResponse :=
  if clientID = "" then (store, ConfigResponse.badRequest)
  else
    let res := getClient store clientID now freshVersion
    match res.2 with
    | none => (res.1, ConfigResponse.forbidden)
    | some state =>
      match state.computedConfig with
      | none => (res.1, ConfigResponse.internalError)
      | some config =>
        let nextChange := (computeClientConfig now state true).2
        let versionChanged := ¬ state.lastSentVersion = config.version
        if ¬ version = "" ∧ ¬ version = config.version then
          (sendConfig res.1 clientID config now freshVersion,
            ConfigResponse.body config)
        else if versionChanged then
          (sendConfig res.1 clientID config now freshVersion,
            ConfigResponse.body config)
        else if version = "" then
          (sendConfig res.1 clientID config now freshVersion,
            ConfigResponse.body config)
        else
          (res.1, ConfigResponse.longPollWait (longPollDeadline now nextChange))

/-- One admin-visible mutation of the store: the §4.2 operations as driven
by the admin HTTP surface, with every call-site-minted fresh id, time and
payload carried in the constructor. -/
inductive AdminOp
  | createClient (clientID name : String) (now : Int) (freshVersion : String)
  | removeClient (clientID : String)
  | addUserOp (clientID : String) (user : User) (freshUserID : String) (now : Int)
  | updateScheduleOp (clientID userID : String) (sched : DaySchedule) (now : Int)
  | deleteUserOp (clientID userID : String) (now : Int)
  | grantTempOp (clientID userID : String) (untl now : Int) (freshID : String)
  | blockOp (clientID userID : String) (start untl now : Int) (freshID : String)
  | deleteBlockOp (clientID requestID : String) (now : Int)
  | deleteTempOp (clientID requestID : String) (now : Int)
  | bumpVersionOp (clientID : String) (freshVersion : String) (now : Int)
  | readClientOp (clientID : String) (now : Int) (freshVersion : String)
  | updateLastSentOp (clientID : String)
      (intervals : List (String × List AllowedInterval))

/-- Apply one admin operation to the store.  `createClient` is the admin
surface's `CreateClient`: `SaveClient` on a fresh empty client. -/
def applyAdminOp (op : AdminOp) (store : Store) : Store :=
  match op with
  | AdminOp.createClient clientID name now freshVersion =>
      saveClient store ⟨clientID, name, [], [], [], [], "", none⟩ now freshVersion
  | AdminOp.removeClient clientID => deleteClient store clientID
  | AdminOp.addUserOp clientID user freshUserID now =>
      addUser store clientID user freshUserID now
  | AdminOp.updateScheduleOp clientID userID sched now =>
      updateUserSchedule store clientID userID sched now
  | AdminOp.deleteUserOp clientID userID now => deleteUser store clientID userID now
  | AdminOp.grantTempOp clientID userID untl now freshID =>
      grantTemporaryAccess store clientID userID untl now freshID
  | AdminOp.blockOp clientID userID start untl now freshID =>
      blockClient store clientID userID start untl now freshID
  | AdminOp.deleteBlockOp clientID requestID now =>
      deleteBlockRequest store clientID requestID now
  | AdminOp.deleteTempOp clientID requestID now =>
      deleteTemporaryAccessRequest store clientID requestID now
  | AdminOp.bumpVersionOp clientID freshVersion now =>
      incrementConfigVersion store clientID freshVersion now
  | AdminOp.readClientOp clientID now freshVersion =>
      (getClient store clientID now freshVersion).1
  | AdminOp.updateLastSentOp clientID intervals =>
      updateLastSent store clientID intervals

/-- Apply a sequence of admin operations, oldest first. -/
def applyAdminOps (ops : List AdminOp) (store : Store) : Store :=
  ops.foldl (fun s op => applyAdminOp op s) store

/-- Both bounded queues of every client hold at most `maxRequests`
entries. -/
def Bounded (store : Store) : Prop :=
  ∀ kv ∈ store, kv.2.temporaryAccessRequests.length ≤ maxRequests ∧
    kv.2.blockRequests.length ≤ maxRequests

/-! ### Sanity checks: the spec's concrete scenarios (section 8) -/

example :  -- schedule only, now 10:00 → [10:00, 13:15]
    computeAllowedIntervals 36000 thursdaySchedule [] [] false
      = ([⟨36000, 47700⟩], 47700) := by decide

example :  -- exact boundary: now = 13:15 → no intervals
    (computeAllowedIntervals 47700 thursdaySchedule [] [] false).1 = [] := by
  decide

example :  -- block [10:00,11:00] cuts [10:00,13:15] → [11:00,13:15]
    (computeAllowedIntervals 36000 thursdaySchedule []
        [⟨36000, 39600⟩] false).1 = [⟨39600, 47700⟩] := by decide

example :  -- temp outside schedule, now 17:00, temp [16:46,17:15] → [17:00,17:15]
    (computeAllowedIntervals 61200 thursdaySchedule
        [⟨60360, 62100⟩] [] false).1 = [⟨61200, 62100⟩] := by decide

example :  -- overnight: thursday 22:00–02:00, now Thu 23:00 → [23:00, Fri 02:00]
    (computeAllowedIntervals 82800
        (fun d => if d = (4 : Fin 7) then [⟨(22, 0), (2, 0)⟩] else [])
        [] [] false).1 = [⟨82800, 93600⟩] := by decide

example :  -- block splits temp: temp [16:00,18:00], block [17:30,17:45], now 17:00
    (computeAllowedIntervals 61200 (fun _ => [])
        [⟨57600, 64800⟩] [⟨63000, 63900⟩] false).1
      = [⟨61200, 63000⟩, ⟨63900, 64800⟩] := by decide

/-! ### Coverage semantics of the interval engine -/

theorem covered_append {l₁ l₂ : List AllowedInterval} {t : Int} :
    covered (l₁ ++ l₂) t ↔ covered l₁ t ∨ covered l₂ t := by
  simp only [covered, List.mem_append]
  constructor
  · rintro ⟨iv, h | h, hm⟩
    · exact Or.inl ⟨iv, h, hm⟩
    · exact Or.inr ⟨iv, h, hm⟩
  · rintro (⟨iv, h, hm⟩ | ⟨iv, h, hm⟩)
    · exact ⟨iv, Or.inl h, hm⟩
    · exact ⟨iv, Or.inr h, hm⟩

theorem covered_of_perm {l₁ l₂ : List AllowedInterval} (h : l₁.Perm l₂) {t : Int} :
    covered l₁ t ↔ covered l₂ t := by
  simp only [covered]
  constructor <;> rintro ⟨iv, hm, hiv⟩
  · exact ⟨iv, h.mem_iff.mp hm, hiv⟩
  · exact ⟨iv, h.mem_iff.mpr hm, hiv⟩

/-- Pointwise effect of `subtractBlockFromIntervals`: an instant is covered
by the output iff it was covered before and is not inside the block. -/
theorem covered_subtractBlock {l : List AllowedInterval} {bs be t : Int} :
    covered (subtractBlockFromIntervals l bs be) t ↔
      covered l t ∧ ¬ (bs ≤ t ∧ t < be) := by
  induction l with
  | nil => simp [covered, subtractBlockFromIntervals]
  | cons iv rest ih =>
    have hsplit : subtractBlockFromIntervals (iv :: rest) bs be =
        (if ¬ bs < iv.stop ∨ ¬ iv.start < be then [iv]
          else
            (if iv.start < bs then [(⟨iv.start, bs⟩ : AllowedInterval)] else []) ++
            (if be < iv.stop then [(⟨be, iv.stop⟩ : AllowedInterval)] else [])) ++
          subtractBlockFromIntervals rest bs be := by
      simp [subtractBlockFromIntervals]
    rw [hsplit, covered_append, ih]
    have hcons : covered (iv :: rest) t ↔
        (iv.start ≤ t ∧ t < iv.stop) ∨ covered rest t := by
      simp only [covered, List.mem_cons]
      constructor
      · rintro ⟨x, h | h, hx⟩
        · exact Or.inl (h ▸ hx)
        · exact Or.inr ⟨x, h, hx⟩
      · rintro (h | ⟨x, h, hx⟩)
        · exact ⟨iv, Or.inl rfl, h⟩
        · exact ⟨x, Or.inr h, hx⟩
    rw [hcons]
    by_cases hdisj : ¬ bs < iv.stop ∨ ¬ iv.start < be
    · simp only [if_pos hdisj]
      have : covered [iv] t ↔ iv.start ≤ t ∧ t < iv.stop := by
        simp [covered]
      rw [this]
      constructor
      · rintro (h | ⟨h1, h2⟩)
        · exact ⟨Or.inl h, by omega⟩
        · exact ⟨Or.inr h1, h2⟩
      · rintro ⟨h1 | h1, h2⟩
        · exact Or.inl h1
        · exact Or.inr ⟨h1, h2⟩
    · simp only [if_neg hdisj]
      push_neg at hdisj
      rw [covered_append]
      have hp1 : covered (if iv.start < bs then [(⟨iv.start, bs⟩ : AllowedInterval)] else []) t ↔
          iv.start ≤ t ∧ t < bs := by
        split
        · simp only [covered, List.mem_singleton]
          constructor
          · rintro ⟨x, rfl, hx⟩; exact hx
          · intro h; exact ⟨_, rfl, h⟩
        · simp only [covered, List.not_mem_nil]
          constructor
          · rintro ⟨x, hx, -⟩; exact absurd hx (by simp)
          · omega
      have hp2 : covered (if be < iv.stop then [(⟨be, iv.stop⟩ : AllowedInterval)] else []) t ↔
          be ≤ t ∧ t < iv.stop := by
        split
        · simp only [covered, List.mem_singleton]
          constructor
          · rintro ⟨x, rfl, hx⟩; exact hx
          · intro h; exact ⟨_, rfl, h⟩
        · simp only [covered, List.not_mem_nil]
          constructor
          · rintro ⟨x, hx, -⟩; exact absurd hx (by simp)
          · omega
      rw [hp1, hp2]
      constructor
      · rintro ((h | h) | ⟨h1, h2⟩)
        · exact ⟨Or.inl (by omega), by omega⟩
        · exact ⟨Or.inl (by omega), by omega⟩
        · exact ⟨Or.inr h1, h2⟩
      · rintro ⟨h1 | h1, h2⟩
        · have := hdisj.1; have := hdisj.2; omega
        · exact Or.inr ⟨h1, h2⟩

/-- Pointwise effect of the block loop (step 4): covered after all blocks
iff covered by the merged list and inside no still-active block. -/
theorem covered_applyBlocks {blocks : List BlockRange} {now t : Int}
    {merged : List AllowedInterval} :
    covered (applyBlocks now blocks merged) t ↔
      covered merged t ∧
        ∀ b ∈ blocks, now < b.stop → b.start < b.stop →
          ¬ (b.start ≤ t ∧ t < b.stop) := by
  induction blocks generalizing merged with
  | nil => simp [applyBlocks]
  | cons b rest ih =>
    have hstep : applyBlocks now (b :: rest) merged =
        applyBlocks now rest
          (if now < b.stop ∧ b.start < b.stop then
            subtractBlockFromIntervals merged b.start b.stop
          else merged) := by
      simp [applyBlocks]
    rw [hstep, ih]
    by_cases hb : now < b.stop ∧ b.start < b.stop
    · rw [if_pos hb, covered_subtractBlock]
      constructor
      · rintro ⟨⟨hc, hnb⟩, hrest⟩
        refine ⟨hc, ?_⟩
        intro b' hb' h1 h2
        rcases List.mem_cons.mp hb' with rfl | hb'
        · exact hnb
        · exact hrest b' hb' h1 h2
      · rintro ⟨hc, hall⟩
        exact ⟨⟨hc, hall b (List.mem_cons_self _ _) hb.1 hb.2⟩,
          fun b' hb' => hall b' (List.mem_cons_of_mem _ hb')⟩
    · rw [if_neg hb]
      constructor
      · rintro ⟨hc, hrest⟩
        refine ⟨hc, ?_⟩
        intro b' hb' h1 h2
        rcases List.mem_cons.mp hb' with rfl | hb'
        · exact absurd ⟨h1, h2⟩ hb
        · exact hrest b' hb' h1 h2
      · rintro ⟨hc, hall⟩
        exact ⟨hc, fun b' hb' => hall b' (List.mem_cons_of_mem _ hb')⟩

theorem covered_cons {iv : AllowedInterval} {l : List AllowedInterval} {t : Int} :
    covered (iv :: l) t ↔ (iv.start ≤ t ∧ t < iv.stop) ∨ covered l t := by
  simp only [covered, List.mem_cons]
  constructor
  · rintro ⟨x, h | h, hx⟩
    · exact Or.inl (h ▸ hx)
    · exact Or.inr ⟨x, h, hx⟩
  · rintro (h | ⟨x, h, hx⟩)
    · exact ⟨iv, Or.inl rfl, h⟩
    · exact ⟨x, Or.inr h, hx⟩

/-- Coalescing a start-sorted list does not change which instants are covered. -/
theorem covered_coalesce {cur : AllowedInterval} {l : List AllowedInterval}
    (h : (cur :: l).Pairwise leStart) {t : Int} :
    covered (coalesce cur l) t ↔ (cur.start ≤ t ∧ t < cur.stop) ∨ covered l t := by
  induction l generalizing cur with
  | nil => simp [coalesce, covered]
  | cons iv rest ih =>
    rw [List.pairwise_cons] at h
    obtain ⟨hcur, htail⟩ := h
    have hci : leStart cur iv := hcur iv (List.mem_cons_self _ _)
    by_cases hm : iv.start ≤ cur.stop
    · rw [coalesce, if_pos hm]
      have hpair : ((⟨cur.start, if cur.stop < iv.stop then iv.stop else cur.stop⟩ :
          AllowedInterval) :: rest).Pairwise leStart := by
        rw [List.pairwise_cons]
        exact ⟨fun a ha => hcur a (List.mem_cons_of_mem _ ha),
          (List.pairwise_cons.mp htail).2⟩
      rw [ih hpair, covered_cons]
      unfold leStart at hci
      constructor
      · rintro (h | h)
        · simp only at h
          split at h <;> [skip; skip] <;> omega
        · exact Or.inr (Or.inr h)
      · rintro (h | h | h)
        · refine Or.inl ?_
          simp only
          split <;> omega
        · refine Or.inl ?_
          simp only
          split <;> omega
        · exact Or.inr h
    · rw [coalesce, if_neg hm, covered_cons, ih htail, covered_cons]

/-- `mergeIntervals` does not change which instants are covered. -/
theorem covered_mergeIntervals {l : List AllowedInterval} {t : Int} :
    covered (mergeIntervals l) t ↔ covered l t := by
  have hperm : (sortIntervals l).Perm l := List.perm_insertionSort leStart l
  have hsorted : (sortIntervals l).Pairwise leStart :=
    List.sorted_insertionSort leStart l
  unfold mergeIntervals
  match hs : sortIntervals l with
  | [] =>
    rw [hs] at hperm
    have : l = [] := hperm.symm.eq_nil
    simp [this, covered]
  | first :: rest =>
    rw [hs] at hperm hsorted
    rw [covered_coalesce hsorted, ← covered_cons]
    exact covered_of_perm hperm

/-- Any interval emitted by the schedule loop is nonempty, and (unless
`includePast`) starts no earlier than `now`. -/
theorem emitSched_facts {now windowEnd day : Int} {includePast : Bool}
    {iv : TimeInterval} {a : AllowedInterval}
    (h : emitSched now windowEnd includePast day iv = some a) :
    a.start < a.stop ∧ (includePast = false → now ≤ a.start) := by
  unfold emitSched at h
  rcases hp : parseDayInterval day iv with - | ⟨start0, end0⟩ <;> rw [hp] at h
  · exact absurd h (by simp)
  · simp only at h
    cases includePast with
    | true =>
      simp only [reduceCtorEq, false_and, if_false] at h
      split_ifs at h <;>
        first
          | exact Option.noConfusion h
          | (injection h with h; subst h; dsimp only;
             exact ⟨by omega, fun hip => Bool.noConfusion hip⟩)
    | false =>
      simp only [eq_self_iff_true, true_and, and_true] at h
      split_ifs at h <;>
        first
          | exact Option.noConfusion h
          | (injection h with h; subst h; dsimp only; exact ⟨by omega, fun _ => by omega⟩)

/-- Any interval emitted by the temp-access loop is nonempty, and (unless
`includePast`) starts no earlier than `now`. -/
theorem emitTemp_facts {now windowEnd : Int} {includePast : Bool}
    {ta : TempAccessRange} {a : AllowedInterval}
    (h : emitTemp now windowEnd includePast ta = some a) :
    a.start < a.stop ∧ (includePast = false → now ≤ a.start) := by
  unfold emitTemp at h
  cases includePast with
  | true =>
    simp only [reduceCtorEq, false_and, and_false, if_false] at h
    split_ifs at h <;>
      first
        | exact Option.noConfusion h
        | (injection h with h; subst h; dsimp only;
           exact ⟨by omega, fun hip => Bool.noConfusion hip⟩)
  | false =>
    simp only [eq_self_iff_true, true_and, and_true] at h
    split_ifs at h <;>
      first
        | exact Option.noConfusion h
        | (injection h with h; subst h; dsimp only; exact ⟨by omega, fun _ => by omega⟩)

/-- Every raw interval (schedule expansion + clipped grants) is nonempty,
and (unless `includePast`) starts no earlier than `now`. -/
theorem baseIntervals_facts {now windowEnd today : Int} {schedule : DaySchedule}
    {tempAccess : List TempAccessRange} {includePast : Bool}
    {a : AllowedInterval}
    (h : a ∈ baseIntervals now windowEnd today schedule tempAccess includePast) :
    a.start < a.stop ∧ (includePast = false → now ≤ a.start) := by
  rcases List.mem_append.mp h with h | h
  · unfold schedIntervals at h
    rcases List.mem_flatMap.mp h with ⟨off, -, hmem⟩
    rcases List.mem_filterMap.mp hmem with ⟨iv, -, hemit⟩
    exact emitSched_facts hemit
  · rcases List.mem_filterMap.mp h with ⟨ta, -, hemit⟩
    exact emitTemp_facts hemit

/-- Coverage characterization of the whole engine: an instant is covered by
the result iff some raw (schedule/grant) interval covers it and it lies in
no still-active block. -/
theorem covered_computeAllowedIntervals {now0 : Int} {schedule : DaySchedule}
    {tempAccess : List TempAccessRange} {blocks : List BlockRange}
    {includePast : Bool} {t : Int} :
    covered (computeAllowedIntervals now0 schedule tempAccess blocks includePast).1 t ↔
      covered
        (baseIntervals (effectiveNow now0 includePast)
          (effectiveNow now0 includePast + IntervalWindowHours * 3600)
          (floorDay (effectiveNow now0 includePast)) schedule tempAccess includePast) t ∧
      ∀ b ∈ blocks, effectiveNow now0 includePast < b.stop → b.start < b.stop →
        ¬ (b.start ≤ t ∧ t < b.stop) := by
  unfold computeAllowedIntervals
  simp only
  rw [covered_applyBlocks, covered_mergeIntervals]

/-- C2 counterexample: with `include_past = true`, a block that already
ended (`b.stop ≤ now`) is skipped by step 4 (`b.End.After(now)` fails), so
its range can stay covered.  Concretely: Thursday schedule 07:00–13:15,
`now` = Thu 12:00, block 08:00–09:00 (fully past): the result still
contains the whole 07:00–13:15 interval, and 08:30 lies both in the block
and in the returned interval — the claim's universally-quantified block
dominance fails. -/
theorem claim_C2_counterexample :
    (computeAllowedIntervals 43200 thursdaySchedule []
        [⟨28800, 32400⟩] true).1 = [⟨25200, 47700⟩] ∧
    ((⟨28800, 32400⟩ : BlockRange) ∈ [(⟨28800, 32400⟩ : BlockRange)]) ∧
    ((28800 : Int) ≤ 30000 ∧ (30000 : Int) < 32400) ∧
    ((25200 : Int) ≤ 30000 ∧ (30000 : Int) < 47700) := by
  refine ⟨by decide, by decide, by decide, by decide⟩

/-- C2 (amended): block dominance holds for every block that is still
active (`now < b.stop`, with `now` the engine's effective now), and — when
`include_past` is false — for every block whatsoever: no returned interval
contains an instant of such a block's `[start, stop)` range.  (The
unamended claim also covered already-expired blocks under
`include_past = true`; see the counterexample.) -/
theorem claim_C2 (now0 : Int) (schedule : DaySchedule)
    (tempAccess : List TempAccessRange) (blocks : List BlockRange)
    (includePast : Bool) (b : BlockRange) (I : AllowedInterval) (t : Int)
    (hb : b ∈ blocks)
    (hI : I ∈ (computeAllowedIntervals now0 schedule tempAccess blocks includePast).1)
    (hbt : b.start ≤ t) (htb : t < b.stop)
    (hcase : includePast = false ∨ effectiveNow now0 includePast < b.stop) :
    ¬ (I.start ≤ t ∧ t < I.stop) := by
  rintro ⟨hIt, htI⟩
  have hcov : covered (computeAllowedIntervals now0 schedule tempAccess blocks includePast).1 t :=
    ⟨I, hI, hIt, htI⟩
  rw [covered_computeAllowedIntervals] at hcov
  obtain ⟨hbase, hblocks⟩ := hcov
  by_cases hact : effectiveNow now0 includePast < b.stop
  · exact hblocks b hb hact (by omega) ⟨hbt, htb⟩
  · rcases hcase with hip | hact'
    · obtain ⟨iv, hiv, hivt, htiv⟩ := hbase
      have := (baseIntervals_facts hiv).2 hip
      omega
    · exact absurd hact' hact

/-- C2 witness: a still-active block 11:00–12:00 cutting the Thursday
schedule; the instant 11:06:40 lies in the block and in no returned
interval. -/
theorem claim_C2_witness :
    ((⟨36000, 39600⟩ : AllowedInterval) ∈
      (computeAllowedIntervals 36000 thursdaySchedule []
        [⟨39600, 43200⟩] false).1) ∧
    ¬ ((⟨36000, 39600⟩ : AllowedInterval).start ≤ 40000 ∧
        (40000 : Int) < (⟨36000, 39600⟩ : AllowedInterval).stop) :=
  ⟨by decide,
    claim_C2 36000 thursdaySchedule [] [⟨39600, 43200⟩] false
      ⟨39600, 43200⟩ ⟨36000, 39600⟩ 40000 (by decide) (by decide)
      (by decide) (by decide) (Or.inl rfl)⟩

/-- C8: grant monotonicity.  Appending one more TempGrant never removes
coverage: every instant covered by some returned interval is still covered
after the grant is added.  Holds because the raw interval list only grows,
merging preserves coverage exactly, and the subtracted blocks are
unchanged. -/
theorem claim_C8 (now0 : Int) (schedule : DaySchedule)
    (tempAccess : List TempAccessRange) (g : TempAccessRange)
    (blocks : List BlockRange) (includePast : Bool) (t : Int)
    (h : covered (computeAllowedIntervals now0 schedule tempAccess blocks includePast).1 t) :
    covered (computeAllowedIntervals now0 schedule (tempAccess ++ [g]) blocks includePast).1 t := by
  rw [covered_computeAllowedIntervals] at h ⊢
  obtain ⟨hbase, hblocks⟩ := h
  refine ⟨?_, hblocks⟩
  unfold baseIntervals at hbase ⊢
  rw [covered_append] at hbase ⊢
  rcases hbase with hs | ht
  · exact Or.inl hs
  · refine Or.inr ?_
    rw [List.filterMap_append, covered_append]
    exact Or.inl ht

/-- C8 witness: instant 10:00 is covered by the Thursday schedule and stays
covered after granting 13:53–16:40. -/
theorem claim_C8_witness :
    covered (computeAllowedIntervals 36000 thursdaySchedule [] [] false).1 36000 ∧
    covered (computeAllowedIntervals 36000 thursdaySchedule
        [⟨50000, 60000⟩] [] false).1 36000 :=
  ⟨by decide,
    claim_C8 36000 thursdaySchedule [] ⟨50000, 60000⟩ [] false 36000 (by decide)⟩

/-! ### Sortedness and disjointness of the result (C4) -/

theorem mem_coalesce_lb {lb : Int} {cur : AllowedInterval} {l : List AllowedInterval}
    (hcur : lb ≤ cur.start) (hl : ∀ iv ∈ l, lb ≤ iv.start) :
    ∀ x ∈ coalesce cur l, lb ≤ x.start := by
  induction l generalizing cur with
  | nil =>
    intro x hx
    simp only [coalesce, List.mem_singleton] at hx
    exact hx ▸ hcur
  | cons iv rest ih =>
    intro x hx
    simp only [coalesce] at hx
    split at hx
    · refine ih ?_ (fun a ha => hl a (List.mem_cons_of_mem _ ha)) x hx
      exact hcur
    · rcases List.mem_cons.mp hx with rfl | hx
      · exact hcur
      · exact ih (hl iv (List.mem_cons_self _ _))
          (fun a ha => hl a (List.mem_cons_of_mem _ ha)) x hx

theorem mem_coalesce_wf {cur : AllowedInterval} {l : List AllowedInterval}
    (hcur : cur.start < cur.stop) (hl : ∀ iv ∈ l, iv.start < iv.stop) :
    ∀ x ∈ coalesce cur l, x.start < x.stop := by
  induction l generalizing cur with
  | nil =>
    intro x hx
    simp only [coalesce, List.mem_singleton] at hx
    exact hx ▸ hcur
  | cons iv rest ih =>
    intro x hx
    simp only [coalesce] at hx
    split at hx
    · refine ih ?_ (fun a ha => hl a (List.mem_cons_of_mem _ ha)) x hx
      dsimp only
      split <;> omega
    · rcases List.mem_cons.mp hx with rfl | hx
      · exact hcur
      · exact ih (hl iv (List.mem_cons_self _ _))
          (fun a ha => hl a (List.mem_cons_of_mem _ ha)) x hx

theorem coalesce_pairwise {cur : AllowedInterval} {l : List AllowedInterval}
    (h : (cur :: l).Pairwise leStart) :
    (coalesce cur l).Pairwise fun a b => a.stop < b.start := by
  induction l generalizing cur with
  | nil => simp [coalesce]
  | cons iv rest ih =>
    rw [List.pairwise_cons] at h
    obtain ⟨hcur, htail⟩ := h
    simp only [coalesce]
    split
    · apply ih
      rw [List.pairwise_cons]
      exact ⟨fun a ha => hcur a (List.mem_cons_of_mem _ ha),
        (List.pairwise_cons.mp htail).2⟩
    · rename_i hlt
      rw [List.pairwise_cons]
      refine ⟨?_, ih htail⟩
      intro x hx
      have hx' := mem_coalesce_lb (le_refl iv.start)
        (fun a ha => (List.pairwise_cons.mp htail).1 a ha) x hx
      omega

/-- Field bounds for each piece produced by the per-interval case of
`subtractBlockFromIntervals`. -/
theorem subtractPiece_facts {iv p : AllowedInterval} {bs be : Int}
    (hp : p ∈ (if ¬ bs < iv.stop ∨ ¬ iv.start < be then [iv]
      else
        (if iv.start < bs then [(⟨iv.start, bs⟩ : AllowedInterval)] else []) ++
        (if be < iv.stop then [(⟨be, iv.stop⟩ : AllowedInterval)] else []))) :
    iv.start ≤ p.start ∧ p.stop ≤ iv.stop ∧ (iv.start < iv.stop → p.start < p.stop) := by
  split_ifs at hp with h1 h2 h3 h4
  · simp only [List.mem_singleton] at hp
    subst hp
    exact ⟨le_refl _, le_refl _, fun h => h⟩
  · push_neg at h1
    simp only [List.mem_append, List.mem_singleton, List.not_mem_nil, or_false,
      false_or] at hp
    rcases hp with rfl | rfl
    · refine ⟨?_, ?_, fun _ => ?_⟩ <;> dsimp only <;> omega
    · refine ⟨?_, ?_, fun _ => ?_⟩ <;> dsimp only <;> omega
  · push_neg at h1
    simp only [List.append_nil, List.mem_singleton] at hp
    subst hp
    refine ⟨?_, ?_, fun _ => ?_⟩ <;> dsimp only <;> omega
  · push_neg at h1
    simp only [List.nil_append, List.mem_singleton] at hp
    subst hp
    refine ⟨?_, ?_, fun _ => ?_⟩ <;> dsimp only <;> omega
  · simp at hp

theorem mem_subtract_facts {l : List AllowedInterval} {bs be : Int}
    {p : AllowedInterval} (hp : p ∈ subtractBlockFromIntervals l bs be) :
    ∃ iv ∈ l, iv.start ≤ p.start ∧ p.stop ≤ iv.stop ∧
      (iv.start < iv.stop → p.start < p.stop) := by
  unfold subtractBlockFromIntervals at hp
  rcases List.mem_flatMap.mp hp with ⟨iv, hiv, hmem⟩
  exact ⟨iv, hiv, subtractPiece_facts hmem⟩

theorem subtract_pairwise {l : List AllowedInterval} {bs be : Int} (hbe : bs < be)
    (h : l.Pairwise fun a b => a.stop < b.start) :
    (subtractBlockFromIntervals l bs be).Pairwise fun a b => a.stop < b.start := by
  unfold subtractBlockFromIntervals
  rw [List.pairwise_flatMap]
  constructor
  · intro iv hiv
    split_ifs with h1 h2 h3 h4
    · exact List.pairwise_singleton _ _
    · rw [List.pairwise_append]
      refine ⟨List.pairwise_singleton _ _, List.pairwise_singleton _ _, ?_⟩
      intro a ha b hb
      simp only [List.mem_singleton] at ha hb
      subst ha; subst hb
      dsimp only
      omega
    · simp
    · simp
    · simp
  · refine h.imp ?_
    intro a b hab
    intro x hx y hy
    have hxf := subtractPiece_facts hx
    have hyf := subtractPiece_facts hy
    omega

theorem applyBlocks_pairwise {now : Int} {blocks : List BlockRange}
    {merged : List AllowedInterval}
    (h : merged.Pairwise fun a b => a.stop < b.start) :
    (applyBlocks now blocks merged).Pairwise fun a b => a.stop < b.start := by
  induction blocks generalizing merged with
  | nil => exact h
  | cons b rest ih =>
    have hstep : applyBlocks now (b :: rest) merged =
        applyBlocks now rest
          (if now < b.stop ∧ b.start < b.stop then
            subtractBlockFromIntervals merged b.start b.stop
          else merged) := by
      simp [applyBlocks]
    rw [hstep]
    split
    · rename_i hb
      exact ih (subtract_pairwise hb.2 h)
    · exact ih h

theorem applyBlocks_wf {now : Int} {blocks : List BlockRange}
    {merged : List AllowedInterval}
    (hwf : ∀ iv ∈ merged, iv.start < iv.stop) :
    ∀ x ∈ applyBlocks now blocks merged, x.start < x.stop := by
  induction blocks generalizing merged with
  | nil => exact hwf
  | cons b rest ih =>
    have hstep : applyBlocks now (b :: rest) merged =
        applyBlocks now rest
          (if now < b.stop ∧ b.start < b.stop then
            subtractBlockFromIntervals merged b.start b.stop
          else merged) := by
      simp [applyBlocks]
    rw [hstep]
    split
    · refine ih ?_
      intro x hx
      obtain ⟨iv, hiv, hf⟩ := mem_subtract_facts hx
      exact hf.2.2 (hwf iv hiv)
    · exact ih hwf

theorem applyBlocks_lb {now lb : Int} {blocks : List BlockRange}
    {merged : List AllowedInterval}
    (hlb : ∀ iv ∈ merged, lb ≤ iv.start) :
    ∀ x ∈ applyBlocks now blocks merged, lb ≤ x.start := by
  induction blocks generalizing merged with
  | nil => exact hlb
  | cons b rest ih =>
    have hstep : applyBlocks now (b :: rest) merged =
        applyBlocks now rest
          (if now < b.stop ∧ b.start < b.stop then
            subtractBlockFromIntervals merged b.start b.stop
          else merged) := by
      simp [applyBlocks]
    rw [hstep]
    split
    · refine ih ?_
      intro x hx
      obtain ⟨iv, hiv, hf⟩ := mem_subtract_facts hx
      exact le_trans (hlb iv hiv) hf.1
    · exact ih hlb

theorem mergeIntervals_pairwise {l : List AllowedInterval} :
    (mergeIntervals l).Pairwise fun a b => a.stop < b.start := by
  have hsorted : (sortIntervals l).Pairwise leStart :=
    List.sorted_insertionSort leStart l
  unfold mergeIntervals
  match hs : sortIntervals l with
  | [] => exact List.Pairwise.nil
  | first :: rest =>
    rw [hs] at hsorted
    exact coalesce_pairwise hsorted

theorem mergeIntervals_wf {l : List AllowedInterval}
    (hwf : ∀ iv ∈ l, iv.start < iv.stop) :
    ∀ x ∈ mergeIntervals l, x.start < x.stop := by
  have hperm : (sortIntervals l).Perm l := List.perm_insertionSort leStart l
  unfold mergeIntervals
  match hs : sortIntervals l with
  | [] => simp
  | first :: rest =>
    rw [hs] at hperm
    have hwfs : ∀ iv ∈ first :: rest, iv.start < iv.stop :=
      fun iv hiv => hwf iv (hperm.mem_iff.mp hiv)
    exact mem_coalesce_wf (hwfs first (List.mem_cons_self _ _))
      (fun a ha => hwfs a (List.mem_cons_of_mem _ ha))

theorem mergeIntervals_lb {l : List AllowedInterval} {lb : Int}
    (hlb : ∀ iv ∈ l, lb ≤ iv.start) :
    ∀ x ∈ mergeIntervals l, lb ≤ x.start := by
  have hperm : (sortIntervals l).Perm l := List.perm_insertionSort leStart l
  unfold mergeIntervals
  match hs : sortIntervals l with
  | [] => simp
  | first :: rest =>
    rw [hs] at hperm
    have hlbs : ∀ iv ∈ first :: rest, lb ≤ iv.start :=
      fun iv hiv => hlb iv (hperm.mem_iff.mp hiv)
    exact mem_coalesce_lb (hlbs first (List.mem_cons_self _ _))
      (fun a ha => hlbs a (List.mem_cons_of_mem _ ha))

/-- Every returned interval is nonempty, and (unless `include_past`) starts
no earlier than the effective now. -/
theorem computeAllowedIntervals_facts {now0 : Int} {schedule : DaySchedule}
    {tempAccess : List TempAccessRange} {blocks : List BlockRange}
    {includePast : Bool} :
    ∀ x ∈ (computeAllowedIntervals now0 schedule tempAccess blocks includePast).1,
      x.start < x.stop ∧
        (includePast = false → effectiveNow now0 includePast ≤ x.start) := by
  intro x hx
  unfold computeAllowedIntervals at hx
  simp only at hx
  constructor
  · exact applyBlocks_wf
      (mergeIntervals_wf fun iv hiv => (baseIntervals_facts hiv).1) x hx
  · intro hip
    exact applyBlocks_lb
      (mergeIntervals_lb fun iv hiv => (baseIntervals_facts hiv).2 hip) x hx

/-- C4: for all inputs the returned interval list is strictly sorted
ascending by `start` and pairwise non-overlapping (`a.stop ≤ b.start` for
`a` before `b`), and — when `include_past` is false — every returned
interval satisfies `stop > now`, where `now` is the engine's
minute-truncated now (the §4.1 contract truncates `now` on entry when
`include_past` is false). -/
theorem claim_C4 (now0 : Int) (schedule : DaySchedule)
    (tempAccess : List TempAccessRange) (blocks : List BlockRange)
    (includePast : Bool) :
    ((computeAllowedIntervals now0 schedule tempAccess blocks includePast).1.Pairwise
      fun a b => a.start < b.start ∧ a.stop ≤ b.start) ∧
    (includePast = false →
      ∀ iv ∈ (computeAllowedIntervals now0 schedule tempAccess blocks includePast).1,
        truncMinute now0 < iv.stop) := by
  have hstrict :
      (computeAllowedIntervals now0 schedule tempAccess blocks includePast).1.Pairwise
        fun a b => a.stop < b.start := by
    unfold computeAllowedIntervals
    simp only
    exact applyBlocks_pairwise mergeIntervals_pairwise
  constructor
  · refine hstrict.imp_of_mem ?_
    intro a b ha hb hab
    have hfa := (computeAllowedIntervals_facts a ha).1
    exact ⟨by omega, by omega⟩
  · intro hip iv hiv
    have hf := computeAllowedIntervals_facts iv hiv
    have hlb := hf.2 hip
    rw [hip, effectiveNow, if_neg (by simp)] at hlb
    have := hf.1
    omega

/-- C4 witness at a concrete input: a temp grant split by a block. -/
theorem claim_C4_witness :
    ((computeAllowedIntervals 61200 (fun _ => [])
        [⟨57600, 64800⟩] [⟨63000, 63900⟩] false).1.Pairwise
      fun a b => a.start < b.start ∧ a.stop ≤ b.start) ∧
    (∀ iv ∈ (computeAllowedIntervals 61200 (fun _ => [])
        [⟨57600, 64800⟩] [⟨63000, 63900⟩] false).1,
      truncMinute 61200 < iv.stop) := by
  have h := claim_C4 61200 (fun _ => []) [⟨57600, 64800⟩] [⟨63000, 63900⟩] false
  exact ⟨h.1, h.2 rfl⟩

/-! ### The next-change instant (C5) -/

theorem foldl_stepNC_ivs (now : Int) (L : List AllowedInterval) (c : Int) :
    L.foldl (fun c iv => stepNC now (stepNC now c iv.start) iv.stop) c
      = (L.flatMap fun iv => [iv.start, iv.stop]).foldl (stepNC now) c := by
  induction L generalizing c with
  | nil => rfl
  | cons x xs ih => simp only [List.foldl_cons, List.flatMap_cons, ih]; rfl

theorem foldl_stepNC_blocks (now : Int) (L : List BlockRange) (c : Int) :
    L.foldl (fun c bl => stepNC now (stepNC now c bl.start) bl.stop) c
      = (L.flatMap fun bl => [bl.start, bl.stop]).foldl (stepNC now) c := by
  induction L generalizing c with
  | nil => rfl
  | cons x xs ih => simp only [List.foldl_cons, List.flatMap_cons, ih]; rfl

theorem nextChangeScan_eq_foldl (now windowEnd : Int) (ivs : List AllowedInterval)
    (tempAccess : List TempAccessRange) (blocks : List BlockRange) :
    nextChangeScan now windowEnd ivs tempAccess blocks
      = (ncCandidates ivs tempAccess blocks).foldl (stepNC now) windowEnd := by
  unfold nextChangeScan ncCandidates
  rw [List.foldl_append, List.foldl_append, foldl_stepNC_ivs,
    foldl_stepNC_blocks, List.foldl_map]

theorem foldl_stepNC_facts (now : Int) (L : List Int) (c0 : Int) :
    L.foldl (stepNC now) c0 ≤ c0 ∧
      (∀ x ∈ L, now < x → L.foldl (stepNC now) c0 ≤ x) ∧
      (L.foldl (stepNC now) c0 = c0 ∨
        (L.foldl (stepNC now) c0 ∈ L ∧ now < L.foldl (stepNC now) c0)) := by
  induction L generalizing c0 with
  | nil => exact ⟨le_refl _, by simp, Or.inl rfl⟩
  | cons x xs ih =>
    simp only [List.foldl_cons]
    obtain ⟨ih1, ih2, ih3⟩ := ih (stepNC now c0 x)
    have hstep : stepNC now c0 x ≤ c0 ∧ (now < x → stepNC now c0 x ≤ x) ∧
        (stepNC now c0 x = c0 ∨ stepNC now c0 x = x) := by
      unfold stepNC
      split <;> rename_i hc
      · exact ⟨by omega, fun _ => le_refl _, Or.inr rfl⟩
      · exact ⟨le_refl _, fun hx => by omega, Or.inl rfl⟩
    refine ⟨le_trans ih1 hstep.1, ?_, ?_⟩
    · intro y hy hnowy
      rcases List.mem_cons.mp hy with hyx | hy
      · rw [hyx] at hnowy ⊢
        by_cases hlt : x < c0
        · have hsx : stepNC now c0 x = x := by unfold stepNC; rw [if_pos ⟨hnowy, hlt⟩]
          exact le_of_le_of_eq ih1 hsx
        · have hsx : stepNC now c0 x = c0 := by
            unfold stepNC
            split <;> omega
          omega
      · exact ih2 y hy hnowy
    · rcases ih3 with heq | ⟨hmem, hnow⟩
      · rcases hstep.2.2 with h | h
        · exact Or.inl (by omega)
        · rw [heq, h]
          by_cases hx : now < x
          · exact Or.inr ⟨List.mem_cons_self _ _, hx⟩
          · refine Or.inl ?_
            unfold stepNC at h
            split at h <;> omega
      · exact Or.inr ⟨List.mem_cons_of_mem _ hmem, hnow⟩

/-- C5 counterexample: the claim says `next_change` is the earliest future
instant at which the returned interval list would differ.  With the
Thursday 07:00–13:15 schedule and `now` = 10:00, `include_past = false`,
the engine returns `next_change` = 13:15; but the result already differs at
10:01 (the interval's start is clipped to the minute-truncated now), an
earlier future instant — so the returned value is not the earliest. -/
theorem claim_C5_counterexample :
    computeAllowedIntervals 36000 thursdaySchedule [] [] false
        = ([⟨36000, 47700⟩], 47700) ∧
    (computeAllowedIntervals 36060 thursdaySchedule [] [] false).1
        = [⟨36060, 47700⟩] ∧
    (36000 : Int) < 36060 ∧ (36060 : Int) < 47700 ∧
    ([(⟨36060, 47700⟩ : AllowedInterval)] ≠ [(⟨36000, 47700⟩ : AllowedInterval)]) := by
  refine ⟨by decide, by decide, by decide, by decide, by decide⟩

/-- C5 (amended): `next_change` is the minimum of the window end
(`now + 48 h` for the effective, minute-truncated now) and all boundary
candidates — returned interval starts and ends, grant ends, block starts
and ends — lying strictly in the future; it is strictly in the future, is
never above the window end, and when it is not the window end it is itself
one of the scanned boundary candidates.  (The unamended "earliest instant
at which the result would differ" reading fails; see the counterexample.) -/
theorem claim_C5 (now0 : Int) (schedule : DaySchedule)
    (tempAccess : List TempAccessRange) (blocks : List BlockRange)
    (includePast : Bool) :
    effectiveNow now0 includePast
        < (computeAllowedIntervals now0 schedule tempAccess blocks includePast).2 ∧
    (computeAllowedIntervals now0 schedule tempAccess blocks includePast).2
        ≤ effectiveNow now0 includePast + IntervalWindowHours * 3600 ∧
    (∀ x ∈ ncCandidates
        (computeAllowedIntervals now0 schedule tempAccess blocks includePast).1
        tempAccess blocks,
      effectiveNow now0 includePast < x →
        (computeAllowedIntervals now0 schedule tempAccess blocks includePast).2 ≤ x) ∧
    ((computeAllowedIntervals now0 schedule tempAccess blocks includePast).2
        = effectiveNow now0 includePast + IntervalWindowHours * 3600 ∨
      (computeAllowedIntervals now0 schedule tempAccess blocks includePast).2
        ∈ ncCandidates
            (computeAllowedIntervals now0 schedule tempAccess blocks includePast).1
            tempAccess blocks) := by
  have heq :
      (computeAllowedIntervals now0 schedule tempAccess blocks includePast).2
        = (ncCandidates
            (computeAllowedIntervals now0 schedule tempAccess blocks includePast).1
            tempAccess blocks).foldl
            (stepNC (effectiveNow now0 includePast))
            (effectiveNow now0 includePast + IntervalWindowHours * 3600) := by
    conv_lhs => unfold computeAllowedIntervals
    conv_rhs => rw [show (computeAllowedIntervals now0 schedule tempAccess blocks
      includePast).1 = applyBlocks (effectiveNow now0 includePast) blocks
        (mergeIntervals (baseIntervals (effectiveNow now0 includePast)
          (effectiveNow now0 includePast + IntervalWindowHours * 3600)
          (floorDay (effectiveNow now0 includePast)) schedule tempAccess
          includePast)) from rfl]
    exact nextChangeScan_eq_foldl _ _ _ _ _
  have hw : (0 : Int) < IntervalWindowHours * 3600 := by norm_num [IntervalWindowHours]
  obtain ⟨h1, h2, h3⟩ := foldl_stepNC_facts (effectiveNow now0 includePast)
    (ncCandidates
      (computeAllowedIntervals now0 schedule tempAccess blocks includePast).1
      tempAccess blocks)
    (effectiveNow now0 includePast + IntervalWindowHours * 3600)
  rw [← heq] at h1 h2 h3
  refine ⟨?_, h1, h2, ?_⟩
  · rcases h3 with h | h
    · omega
    · exact h.2
  · rcases h3 with h | h
    · exact Or.inl h
    · exact Or.inr h.1

/-- C5 witness: with the Thursday schedule at 10:00 the scan's minimality
applies to the boundary 13:15. -/
theorem claim_C5_witness :
    (computeAllowedIntervals 36000 thursdaySchedule [] [] false).2 ≤ 47700 :=
  (claim_C5 36000 thursdaySchedule [] [] false).2.2.1 47700 (by decide) (by decide)

/-- C1: evaluation at the failing input.  The claim (and spec §4.4/§8) says
`current` defaults to the opposite of `required`, so the first reconcile
applies every user exactly once.  The code reads `lastState[u]`, whose Go
zero value is `false` regardless of `required`: with one user whose
`required` is `false` (no allowed intervals) and an empty `last_state`,
`required == current` holds and the user is skipped — the first reconcile
issues zero capability calls and records `last_state[u] = false` without
ever having changed the account's password. -/
theorem claim_C1 :
    (applyAccessIfNeeded (fun _ _ => true)
        ⟨[⟨"kid", []⟩], "v1"⟩ 0 []).2 = [] ∧
    (applyAccessIfNeeded (fun _ _ => true)
        ⟨[⟨"kid", []⟩], "v1"⟩ 0 []).1 = [("kid", false)] ∧
    isWithinIntervals 0 [] = false := by
  refine ⟨by decide, by decide, by decide⟩

set_option maxRecDepth 10000 in
/-- C9 counterexample: the modulo map from a uniform byte to the 62-char
alphabet is biased — 5 of 256 byte values yield `'a'` but only 4 yield
`'i'` — so "every alphabet character equally likely at every position"
fails; e.g. the all-zero byte stream makes the password all `'a'`. -/
theorem claim_C9_counterexample :
    ((Finset.univ.filter fun b : Fin 256 => byteToChar b = 'a').card = 5) ∧
    ((Finset.univ.filter fun b : Fin 256 => byteToChar b = 'i').card = 4) ∧
    ((5 : Nat) ≠ 4) ∧
    generateRandomPassword 2 (fun _ => (0 : Fin 256)) = ['a', 'a'] := by
  refine ⟨by decide, by decide, by decide, by decide⟩

set_option maxRecDepth 20000 in
/-- C9 (amended): the lock password is exactly 20 characters, every
character comes from the 62-char alphabet `[a-zA-Z0-9]` via
`chars[byte % 62]`, and the per-character distribution over a uniform
random byte is slightly non-uniform: the first 8 alphabet characters
(`a`–`h`) have 5 of 256 byte values each, the other 54 have 4.  (The
unamended uniformity fails; see the counterexample.) -/
theorem claim_C9 (randomBytes : Fin lockPasswordLen → Fin 256) :
    (generateRandomPassword lockPasswordLen randomBytes).length = 20 ∧
    (∀ c ∈ generateRandomPassword lockPasswordLen randomBytes,
      c ∈ passwordChars) ∧
    (∀ j : Fin 62,
      (Finset.univ.filter fun b : Fin 256 =>
          byteToChar b = passwordChars.getD (j : Nat) 'a').card
        = if (j : Nat) < 8 then 5 else 4) := by
  refine ⟨List.length_ofFn _, ?_, by decide⟩
  intro c hc
  unfold generateRandomPassword at hc
  rw [List.mem_ofFn] at hc
  obtain ⟨i, rfl⟩ := hc
  simp only [byteToChar]
  exact List.get_mem _ _ _

/-- C9 witness: a concrete byte stream (all bytes 65) gives a 20-char
password of `'d'`s, inside the alphabet. -/
theorem claim_C9_witness :
    (generateRandomPassword lockPasswordLen
        (fun _ => (65 : Fin 256))).length = 20 ∧
    ('d' : Char) ∈ passwordChars :=
  ⟨(claim_C9 (fun _ => (65 : Fin 256))).1,
    (claim_C9 (fun _ => (65 : Fin 256))).2.1 'd' (by decide)⟩

/-! ### Store lemmas and the queue bound (C6) -/

theorem lookupClient_setClient_self (store : Store) (k : String) (cs : ClientState) :
    lookupClient (setClient store k cs) k = some cs := by
  induction store with
  | nil => simp [setClient, lookupClient]
  | cons kv rest ih =>
    obtain ⟨q, w⟩ := kv
    by_cases hq : q = k
    · subst hq
      simp [setClient, lookupClient]
    · rw [setClient, if_neg hq, lookupClient, if_neg hq]
      exact ih

theorem lookupClient_setClient_ne (store : Store) (k kq : String) (cs : ClientState)
    (h : ¬ k = kq) :
    lookupClient (setClient store k cs) kq = lookupClient store kq := by
  induction store with
  | nil => simp [setClient, lookupClient, h]
  | cons kv rest ih =>
    obtain ⟨q, w⟩ := kv
    by_cases hq : q = k
    · subst hq
      rw [setClient, if_pos rfl, lookupClient, if_neg h, lookupClient, if_neg h]
    · rw [setClient, if_neg hq, lookupClient, lookupClient]
      by_cases hkq : q = kq
      · rw [if_pos hkq, if_pos hkq]
      · rw [if_neg hkq, if_neg hkq]
        exact ih

theorem mem_setClient {store : Store} {k : String} {cs : ClientState}
    {x : String × ClientState} (hx : x ∈ setClient store k cs) :
    x = (k, cs) ∨ x ∈ store := by
  induction store with
  | nil => simpa [setClient] using hx
  | cons kv rest ih =>
    obtain ⟨q, w⟩ := kv
    by_cases hq : q = k
    · subst hq
      rw [setClient, if_pos rfl] at hx
      rcases List.mem_cons.mp hx with rfl | hx
      · exact Or.inl rfl
      · exact Or.inr (List.mem_cons_of_mem _ hx)
    · rw [setClient, if_neg hq] at hx
      rcases List.mem_cons.mp hx with rfl | hx
      · exact Or.inr (List.mem_cons_self _ _)
      · rcases ih hx with h | h
        · exact Or.inl h
        · exact Or.inr (List.mem_cons_of_mem _ h)

theorem lookupClient_mem {store : Store} {k : String} {cs : ClientState}
    (h : lookupClient store k = some cs) : (k, cs) ∈ store := by
  induction store with
  | nil => exact Option.noConfusion h
  | cons kv rest ih =>
    obtain ⟨q, w⟩ := kv
    rw [lookupClient] at h
    split at h
    · rename_i hq
      injection h with h
      subst h
      subst hq
      exact List.mem_cons_self _ _
    · exact List.mem_cons_of_mem _ (ih h)

/-- The append-then-trim of the two bounded queues never exceeds the cap. -/
theorem trim_length_le {α : Type} (L : List α) :
    (if maxRequests < L.length then L.drop (L.length - maxRequests) else L).length
      ≤ maxRequests := by
  split <;> rename_i h
  · rw [List.length_drop]
    omega
  · omega

theorem removeFirstBlock_length {l : List BlockRequest} {rid : String}
    {l2 : List BlockRequest} (h : removeFirstBlock l rid = some l2) :
    l2.length + 1 = l.length := by
  induction l generalizing l2 with
  | nil => exact Option.noConfusion h
  | cons b rest ih =>
    rw [removeFirstBlock] at h
    split at h
    · injection h with h
      subst h
      simp
    · rcases hrec : removeFirstBlock rest rid with - | l3
      · rw [hrec] at h
        exact Option.noConfusion h
      · rw [hrec] at h
        injection h with h
        subst h
        have := ih hrec
        simp only [List.length_cons]
        omega

theorem removeFirstTemp_length {l : List TemporaryAccessRequest} {rid : String}
    {l2 : List TemporaryAccessRequest} (h : removeFirstTemp l rid = some l2) :
    l2.length + 1 = l.length := by
  induction l generalizing l2 with
  | nil => exact Option.noConfusion h
  | cons b rest ih =>
    rw [removeFirstTemp] at h
    split at h
    · injection h with h
      subst h
      simp
    · rcases hrec : removeFirstTemp rest rid with - | l3
      · rw [hrec] at h
        exact Option.noConfusion h
      · rw [hrec] at h
        injection h with h
        subst h
        have := ih hrec
        simp only [List.length_cons]
        omega

theorem bounded_setClient {store : Store} {k : String} {cs : ClientState}
    (h : Bounded store)
    (hcs : cs.temporaryAccessRequests.length ≤ maxRequests ∧
      cs.blockRequests.length ≤ maxRequests) :
    Bounded (setClient store k cs) := by
  intro kv hkv
  rcases mem_setClient hkv with rfl | hkv
  · exact hcs
  · exact h kv hkv

/-- Every single admin operation preserves the queue bound. -/
theorem bounded_applyAdminOp (op : AdminOp) (store : Store) (h : Bounded store) :
    Bounded (applyAdminOp op store) := by
  cases op with
  | createClient clientID name now freshVersion =>
    simp only [applyAdminOp]
    unfold saveClient
    split <;> exact bounded_setClient h (by constructor <;> simp)
  | removeClient clientID =>
    simp only [applyAdminOp]
    unfold deleteClient
    split
    · exact h
    · exact fun kv hkv => h kv (List.mem_of_mem_filter hkv)
  | addUserOp clientID user freshUserID now =>
    simp only [applyAdminOp]
    unfold addUser
    rcases hlk : lookupClient store clientID with - | cs <;> simp only [hlk]
    · exact bounded_setClient h (by constructor <;> simp)
    · exact bounded_setClient h (h _ (lookupClient_mem hlk))
  | updateScheduleOp clientID userID sched now =>
    simp only [applyAdminOp]
    unfold updateUserSchedule
    rcases hlk : lookupClient store clientID with - | cs <;> simp only [hlk]
    · exact h
    · rcases hup : updateFirstUser cs.users userID sched with - | users1 <;>
        simp only [hup]
      · exact h
      · exact bounded_setClient h (h _ (lookupClient_mem hlk))
  | deleteUserOp clientID userID now =>
    simp only [applyAdminOp]
    unfold deleteUser
    rcases hlk : lookupClient store clientID with - | cs <;> simp only [hlk]
    · exact h
    · rcases hup : removeFirstUser cs.users userID with - | users1 <;>
        simp only [hup]
      · exact h
      · refine bounded_setClient h ?_
        have hb := h _ (lookupClient_mem hlk)
        exact ⟨le_trans (List.length_filter_le _ _) hb.1, hb.2⟩
  | grantTempOp clientID userID untl now freshID =>
    simp only [applyAdminOp]
    unfold grantTemporaryAccess
    rcases hlk : lookupClient store clientID with - | cs <;> simp only [hlk]
    · exact h
    · refine bounded_setClient h ?_
      have hb := h _ (lookupClient_mem hlk)
      exact ⟨trim_length_le _, hb.2⟩
  | blockOp clientID userID start untl now freshID =>
    simp only [applyAdminOp]
    unfold blockClient
    rcases hlk : lookupClient store clientID with - | cs <;> simp only [hlk]
    · exact h
    · refine bounded_setClient h ?_
      have hb := h _ (lookupClient_mem hlk)
      exact ⟨hb.1, trim_length_le _⟩
  | deleteBlockOp clientID requestID now =>
    simp only [applyAdminOp]
    unfold deleteBlockRequest
    rcases hlk : lookupClient store clientID with - | cs <;> simp only [hlk]
    · exact h
    · rcases hup : removeFirstBlock cs.blockRequests requestID with - | blocks1 <;>
        simp only [hup]
      · exact h
      · refine bounded_setClient h ?_
        have hb := h _ (lookupClient_mem hlk)
        have hrb := removeFirstBlock_length hup
        dsimp only at hb ⊢
        exact ⟨hb.1, by omega⟩
  | deleteTempOp clientID requestID now =>
    simp only [applyAdminOp]
    unfold deleteTemporaryAccessRequest
    rcases hlk : lookupClient store clientID with - | cs <;> simp only [hlk]
    · exact h
    · rcases hup : removeFirstTemp cs.temporaryAccessRequests requestID with
        - | temps1 <;> simp only [hup]
      · exact h
      · refine bounded_setClient h ?_
        have hb := h _ (lookupClient_mem hlk)
        have hrt := removeFirstTemp_length hup
        dsimp only at hb ⊢
        exact ⟨by omega, hb.2⟩
  | bumpVersionOp clientID freshVersion now =>
    simp only [applyAdminOp]
    unfold incrementConfigVersion
    rcases hlk : lookupClient store clientID with - | cs <;> simp only [hlk]
    · exact h
    · exact bounded_setClient h (h _ (lookupClient_mem hlk))
  | readClientOp clientID now freshVersion =>
    simp only [applyAdminOp]
    unfold getClient
    rcases hlk : lookupClient store clientID with - | cs <;> simp only [hlk]
    · exact h
    · have hb := h _ (lookupClient_mem hlk)
      split
      · exact bounded_setClient h
          ⟨le_trans (List.length_filter_le _ _) hb.1,
            le_trans (List.length_filter_le _ _) hb.2⟩
      · exact bounded_setClient h
          (by split <;>
            exact ⟨le_trans (List.length_filter_le _ _) hb.1,
              le_trans (List.length_filter_le _ _) hb.2⟩)
  | updateLastSentOp clientID intervals =>
    simp only [applyAdminOp]
    unfold updateLastSent
    rcases hlk : lookupClient store clientID with - | cs <;> simp only [hlk]
    · exact h
    · exact bounded_setClient h (h _ (lookupClient_mem hlk))

/-- C6: after any sequence of admin operations both queues of every client
hold at most 10 entries; and when an append would exceed 10 — the queue
already holds 10 — the front (oldest) entry is the one dropped, for the
grant queue and the block queue alike. -/
theorem claim_C6 (ops : List AdminOp) (store : Store) (h : Bounded store) :
    Bounded (applyAdminOps ops store) ∧
    (∀ (store2 : Store) (cid uid : String) (untl now : Int) (fid : String)
        (cs : ClientState),
      lookupClient store2 cid = some cs →
      cs.temporaryAccessRequests.length = maxRequests →
      ∃ cs2, lookupClient (grantTemporaryAccess store2 cid uid untl now fid) cid
          = some cs2 ∧
        cs2.temporaryAccessRequests
          = cs.temporaryAccessRequests.tail ++ [⟨fid, uid, now, untl⟩]) ∧
    (∀ (store2 : Store) (cid uid : String) (start untl now : Int) (fid : String)
        (cs : ClientState),
      lookupClient store2 cid = some cs →
      cs.blockRequests.length = maxRequests →
      ∃ cs2, lookupClient (blockClient store2 cid uid start untl now fid) cid
          = some cs2 ∧
        cs2.blockRequests = cs.blockRequests.tail ++ [⟨fid, uid, start, untl⟩]) := by
  refine ⟨?_, ?_, ?_⟩
  · unfold applyAdminOps
    induction ops generalizing store with
    | nil => exact h
    | cons op rest ih =>
      rw [List.foldl_cons]
      exact ih (applyAdminOp op store) (bounded_applyAdminOp op store h)
  · intro store2 cid uid untl now fid cs hlk hlen
    unfold grantTemporaryAccess
    simp only [hlk]
    refine ⟨_, lookupClient_setClient_self _ _ _, ?_⟩
    dsimp only
    have hlen2 : (cs.temporaryAccessRequests ++
        [(⟨fid, uid, now, untl⟩ : TemporaryAccessRequest)]).length
          = maxRequests + 1 := by
      simp [hlen]
    rw [if_pos (by omega), hlen2,
      show maxRequests + 1 - maxRequests = 1 from by omega,
      List.drop_append_of_le_length (by rw [hlen]; decide), List.drop_one]
  · intro store2 cid uid start untl now fid cs hlk hlen
    unfold blockClient
    simp only [hlk]
    refine ⟨_, lookupClient_setClient_self _ _ _, ?_⟩
    dsimp only
    have hlen2 : (cs.blockRequests ++
        [(⟨fid, uid, start, untl⟩ : BlockRequest)]).length
          = maxRequests + 1 := by
      simp [hlen]
    rw [if_pos (by omega), hlen2,
      show maxRequests + 1 - maxRequests = 1 from by omega,
      List.drop_append_of_le_length (by rw [hlen]; decide), List.drop_one]

/-- C6 witness: from the empty store, create a client and grant eleven
temp accesses; the bound holds throughout. -/
theorem claim_C6_witness :
    Bounded (applyAdminOps
      (AdminOp.createClient "c" "c" 0 "v" ::
        (List.range 11).map fun i =>
          AdminOp.grantTempOp "c" "u" 3600 0 (toString i)) []) :=
  (claim_C6 _ [] (by intro kv hkv; cases hkv)).1

/-! ### DeleteUser frame effect (C10) -/

theorem removeFirstUser_eq_filter {l : List User} {uid : String}
    (hnodup : (l.map User.id).Nodup) (hmem : uid ∈ l.map User.id) :
    removeFirstUser l uid = some (l.filter fun u => ¬ u.id = uid) := by
  induction l with
  | nil => simp at hmem
  | cons u rest ih =>
    rw [List.map_cons, List.nodup_cons] at hnodup
    rw [removeFirstUser]
    by_cases hu : u.id = uid
    · rw [if_pos hu]
      have hrest : rest.filter (fun u => ¬ u.id = uid) = rest := by
        rw [List.filter_eq_self]
        intro v hv
        simp only [decide_eq_true_eq]
        intro hvid
        exact hnodup.1 (by rw [← hu] at hvid; exact hvid ▸ List.mem_map_of_mem _ hv)
      rw [List.filter_cons, if_neg (by simp [hu]), hrest]
    · rw [if_neg hu]
      have hmem2 : uid ∈ rest.map User.id := by
        rcases (by simpa using hmem : uid = u.id ∨ ∃ a ∈ rest, a.id = uid) with
          h | ⟨a, ha, haid⟩
        · exact absurd h.symm hu
        · exact haid ▸ List.mem_map_of_mem _ ha
      rw [ih hnodup.2 hmem2]
      rw [List.filter_cons, if_pos (by simp [hu])]
      rfl

/-- C10: deleting an existing user removes exactly that user, deletes every
TempGrant whose `user_id` equals the deleted user, leaves the Block queue
and the client identity fields untouched, and leaves every other client of
the store unchanged. -/
theorem claim_C10 (store : Store) (clientID userID : String) (now : Int)
    (cs : ClientState)
    (hcs : lookupClient store clientID = some cs)
    (hmem : userID ∈ cs.users.map User.id)
    (hnodup : (cs.users.map User.id).Nodup) :
    ∃ cs2, lookupClient (deleteUser store clientID userID now) clientID = some cs2 ∧
      cs2.users = cs.users.filter (fun u => ¬ u.id = userID) ∧
      cs2.temporaryAccessRequests
        = cs.temporaryAccessRequests.filter (fun t => ¬ t.userID = userID) ∧
      cs2.blockRequests = cs.blockRequests ∧
      cs2.id = cs.id ∧ cs2.name = cs.name ∧
      cs2.lastSentVersion = cs.lastSentVersion ∧
      cs2.lastSentIntervals = cs.lastSentIntervals ∧
      (∀ other, ¬ clientID = other →
        lookupClient (deleteUser store clientID userID now) other
          = lookupClient store other) := by
  unfold deleteUser
  simp only [hcs, removeFirstUser_eq_filter hnodup hmem]
  refine ⟨_, lookupClient_setClient_self _ _ _, ?_⟩
  refine ⟨rfl, rfl, rfl, rfl, rfl, rfl, rfl, ?_⟩
  intro other hother
  exact lookupClient_setClient_ne _ _ _ _ hother

/-- C10 witness: a client with two users; deleting `"u1"` drops that user
and its grant, keeps the other user, the other grant, and the block. -/
theorem claim_C10_witness :
    ∃ cs2,
      lookupClient
        (deleteUser
          [("c1", (⟨"c1", "box", [⟨"u1", "Kid", "kid", fun _ => []⟩,
              ⟨"u2", "Sib", "sib", fun _ => []⟩],
            [⟨"b1", "u1", 0, 900⟩],
            [⟨"t1", "u1", 0, 600⟩, ⟨"t2", "u2", 0, 600⟩],
            [], "v1", none⟩ : ClientState))]
          "c1" "u1" 0) "c1" = some cs2 ∧
      cs2.users = [(⟨"u1", "Kid", "kid", fun _ => []⟩ : User),
          ⟨"u2", "Sib", "sib", fun _ => []⟩].filter (fun u => ¬ u.id = "u1") ∧
      cs2.temporaryAccessRequests
        = [(⟨"t1", "u1", 0, 600⟩ : TemporaryAccessRequest),
            ⟨"t2", "u2", 0, 600⟩].filter (fun t => ¬ t.userID = "u1") ∧
      cs2.blockRequests = [(⟨"b1", "u1", 0, 900⟩ : BlockRequest)] ∧
      cs2.id = "c1" ∧ cs2.name = "box" ∧
      cs2.lastSentVersion = "v1" ∧
      cs2.lastSentIntervals = [] ∧
      (∀ other, ¬ "c1" = other →
        lookupClient
          (deleteUser
            [("c1", (⟨"c1", "box", [⟨"u1", "Kid", "kid", fun _ => []⟩,
                ⟨"u2", "Sib", "sib", fun _ => []⟩],
              [⟨"b1", "u1", 0, 900⟩],
              [⟨"t1", "u1", 0, 600⟩, ⟨"t2", "u2", 0, 600⟩],
              [], "v1", none⟩ : ClientState))]
            "c1" "u1" 0) other
          = lookupClient
              [("c1", (⟨"c1", "box", [⟨"u1", "Kid", "kid", fun _ => []⟩,
                  ⟨"u2", "Sib", "sib", fun _ => []⟩],
                [⟨"b1", "u1", 0, 900⟩],
                [⟨"t1", "u1", 0, 600⟩, ⟨"t2", "u2", 0, 600⟩],
                [], "v1", none⟩ : ClientState))] other) :=
  claim_C10
    [("c1", (⟨"c1", "box", [⟨"u1", "Kid", "kid", fun _ => []⟩,
        ⟨"u2", "Sib", "sib", fun _ => []⟩],
      [⟨"b1", "u1", 0, 900⟩],
      [⟨"t1", "u1", 0, 600⟩, ⟨"t2", "u2", 0, 600⟩],
      [], "v1", none⟩ : ClientState))]
    "c1" "u1" 0
    (⟨"c1", "box", [⟨"u1", "Kid", "kid", fun _ => []⟩,
        ⟨"u2", "Sib", "sib", fun _ => []⟩],
      [⟨"b1", "u1", 0, 900⟩],
      [⟨"t1", "u1", 0, 600⟩, ⟨"t2", "u2", 0, 600⟩],
      [], "v1", none⟩ : ClientState)
    rfl (by decide) (by decide)

/-! ### Unknown-client behavior of the admin endpoints (C3) -/

theorem grantTemporaryAccess_unknown {store : Store} {cid uid : String}
    {untl now : Int} {fid : String} (h : lookupClient store cid = none) :
    grantTemporaryAccess store cid uid untl now fid = store := by
  unfold grantTemporaryAccess
  simp only [h]

theorem blockClient_unknown {store : Store} {cid uid : String}
    {start untl now : Int} {fid : String} (h : lookupClient store cid = none) :
    blockClient store cid uid start untl now fid = store := by
  unfold blockClient
  simp only [h]

theorem updateUserSchedule_unknown {store : Store} {cid uid : String}
    {sched : DaySchedule} {now : Int} (h : lookupClient store cid = none) :
    updateUserSchedule store cid uid sched now = store := by
  unfold updateUserSchedule
  simp only [h]

theorem deleteUser_unknown {store : Store} {cid uid : String} {now : Int}
    (h : lookupClient store cid = none) :
    deleteUser store cid uid now = store := by
  unfold deleteUser
  simp only [h]

theorem deleteBlockRequest_unknown {store : Store} {cid rid : String} {now : Int}
    (h : lookupClient store cid = none) :
    deleteBlockRequest store cid rid now = store := by
  unfold deleteBlockRequest
  simp only [h]

theorem deleteTemporaryAccessRequest_unknown {store : Store} {cid rid : String}
    {now : Int} (h : lookupClient store cid = none) :
    deleteTemporaryAccessRequest store cid rid now = store := by
  unfold deleteTemporaryAccessRequest
  simp only [h]

theorem incrementConfigVersion_unknown {store : Store} {cid fv : String}
    {now : Int} (h : lookupClient store cid = none) :
    incrementConfigVersion store cid fv now = store := by
  unfold incrementConfigVersion
  simp only [h]

/-- C3 counterexample: granting temporary access for a client id that does
not exist returns HTTP 200, not the claimed 404 (the repository silently
no-ops and the handler writes 200). -/
theorem claim_C3_counterexample :
    temporaryAccessEndpoint [] "c1" "u1" 30 0 "f1" "f2" = ([], 200) ∧
    (200 : Nat) ≠ 404 := by
  exact ⟨rfl, by decide⟩

/-- C3 (amended): every admin mutation endpoint invoked with an unknown
`client_id` returns 200 (not 404).  All of them leave the store unchanged —
except add-user, which silently creates the client (with id = name =
client_id) holding exactly the new user.  (404 is returned by none of
them; the repository methods return `nil` for an unknown client and
`AddUser` auto-creates it.) -/
theorem claim_C3 (store : Store) (clientID uid rid name username : String)
    (sched : DaySchedule) (duration now : Int) (fid fuid fv : String)
    (hnone : lookupClient store clientID = none) (hdur : 0 < duration) :
    updateScheduleEndpoint store clientID uid sched fv now = (store, 200) ∧
    deleteUserEndpoint store clientID uid fv now = (store, 200) ∧
    temporaryAccessEndpoint store clientID uid duration now fid fv = (store, 200) ∧
    blockEndpoint store clientID uid duration now fid fv = (store, 200) ∧
    deleteBlockEndpoint store clientID rid fv now = (store, 200) ∧
    deleteTemporaryAccessEndpoint store clientID rid fv now = (store, 200) ∧
    ((addUserEndpoint store clientID name username sched fuid fv now).2 = 200 ∧
      ∃ cs, lookupClient
          (addUserEndpoint store clientID name username sched fuid fv now).1
          clientID = some cs ∧
        cs.users.map User.id = [fuid] ∧ cs.id = clientID ∧ cs.name = clientID) := by
  refine ⟨?_, ?_, ?_, ?_, ?_, ?_, ?_, ?_⟩
  · unfold updateScheduleEndpoint
    simp only [updateUserSchedule_unknown hnone, incrementConfigVersion_unknown hnone]
  · unfold deleteUserEndpoint
    simp only [deleteUser_unknown hnone, incrementConfigVersion_unknown hnone]
  · unfold temporaryAccessEndpoint
    rw [if_neg (by omega)]
    simp only [grantTemporaryAccess_unknown hnone, incrementConfigVersion_unknown hnone]
  · unfold blockEndpoint
    rw [if_neg (by omega)]
    simp only [blockClient_unknown hnone, incrementConfigVersion_unknown hnone]
  · unfold deleteBlockEndpoint
    simp only [deleteBlockRequest_unknown hnone, incrementConfigVersion_unknown hnone]
  · unfold deleteTemporaryAccessEndpoint
    simp only [deleteTemporaryAccessRequest_unknown hnone, incrementConfigVersion_unknown hnone]
  · rfl
  · unfold addUserEndpoint addUser
    simp only [hnone]
    unfold incrementConfigVersion
    simp only [lookupClient_setClient_self]
    refine ⟨_, rfl, ?_, rfl, rfl⟩
    split <;> rfl

/-- C3 witness: the unknown-client no-op at a concrete input. -/
theorem claim_C3_witness :
    updateScheduleEndpoint [] "c1" "u1" (fun _ => []) "v1" 0 = ([], 200) :=
  (claim_C3 [] "c1" "u1" "r1" "Kid" "kid" (fun _ => []) 1 0 "f1" "fu1" "v1"
    rfl (by decide)).1

/-! ### The config endpoint (C7) -/

theorem getClient_unknown {store : Store} {cid : String} {now : Int}
    {fv : String} (h : lookupClient store cid = none) :
    getClient store cid now fv = (store, none) := by
  unfold getClient
  simp only [h]

theorem getClient_config {store : Store} {cid : String} {now : Int}
    {fv : String} {cs : ClientState} (h : lookupClient store cid = some cs) :
    ∃ st, (getClient store cid now fv).2 = some st ∧
      ∃ c, st.computedConfig = some c := by
  unfold getClient
  simp only [h]
  rcases hc : cs.computedConfig with - | c
  · simp only [hc]
    exact ⟨_, rfl, _, rfl⟩
  · simp only [hc]
    exact ⟨_, rfl, c, rfl⟩

/-- C7: the config endpoint returns 400 when `client_id` is missing
(empty), 403 when the client is unknown, and — for an existing client —
a request with an empty/absent `version` is answered immediately with the
cached computed config as the body (never the long-poll wait). -/
theorem claim_C7 :
    (∀ (store : Store) (version : String) (now : Int) (fv : String),
      serveConfig store "" version now fv = (store, ConfigResponse.badRequest)) ∧
    (∀ (store : Store) (cid version : String) (now : Int) (fv : String),
      ¬ cid = "" → lookupClient store cid = none →
      serveConfig store cid version now fv = (store, ConfigResponse.forbidden)) ∧
    (∀ (store : Store) (cid : String) (now : Int) (fv : String)
        (cs : ClientState),
      ¬ cid = "" → lookupClient store cid = some cs →
      ∃ st c, (getClient store cid now fv).2 = some st ∧
        st.computedConfig = some c ∧
        (serveConfig store cid "" now fv).2 = ConfigResponse.body c) := by
  refine ⟨?_, ?_, ?_⟩
  · intro store version now fv
    unfold serveConfig
    rw [if_pos rfl]
  · intro store cid version now fv hcid hnone
    unfold serveConfig
    rw [if_neg hcid]
    simp only [getClient_unknown hnone]
  · intro store cid now fv cs hcid hcs
    obtain ⟨st, hst, c, hc⟩ := @getClient_config store cid now fv cs hcs
    refine ⟨st, c, hst, hc, ?_⟩
    unfold serveConfig
    rw [if_neg hcid]
    simp only [hst, hc]
    rw [if_neg (by simp)]
    split
    · rfl
    · simp

/-- C7 witness at a concrete store: missing id → 400, unknown id → 403,
empty version → immediate body. -/
theorem claim_C7_witness :
    serveConfig [] "" "v" 0 "f" = ([], ConfigResponse.badRequest) ∧
    serveConfig [("c1", (⟨"c1", "c1", [], [], [], [], "v1",
        some ⟨[], "v1"⟩⟩ : ClientState))] "nope" "v" 0 "f"
      = ([("c1", (⟨"c1", "c1", [], [], [], [], "v1",
          some ⟨[], "v1"⟩⟩ : ClientState))], ConfigResponse.forbidden) ∧
    ∃ st c,
      (getClient [("c1", (⟨"c1", "c1", [], [], [], [], "v1",
          some ⟨[], "v1"⟩⟩ : ClientState))] "c1" 0 "f").2 = some st ∧
      st.computedConfig = some c ∧
      (serveConfig [("c1", (⟨"c1", "c1", [], [], [], [], "v1",
          some ⟨[], "v1"⟩⟩ : ClientState))] "c1" "" 0 "f").2
        = ConfigResponse.body c :=
  ⟨claim_C7.1 [] "v" 0 "f",
    claim_C7.2.1 [("c1", (⟨"c1", "c1", [], [], [], [], "v1",
        some ⟨[], "v1"⟩⟩ : ClientState))] "nope" "v" 0 "f" (by decide) rfl,
    claim_C7.2.2 [("c1", (⟨"c1", "c1", [], [], [], [], "v1",
        some ⟨[], "v1"⟩⟩ : ClientState))] "c1" 0 "f"
      (⟨"c1", "c1", [], [], [], [], "v1", some ⟨[], "v1"⟩⟩ : ClientState)
      (by decide) rfl⟩

end Aegis
